import Mathlib

/-!
# Verification of the Zantetsu heuristic filename parser

Shallow embedding of the reference (pure JavaScript) parsing pipeline from
`src/bindings/node/src/index.ts` (`class JsHeuristicParser` together with the
public `HeuristicParser.parse` / `parseBatch` wrappers), against the
natural-language specification.

Modelling conventions:
* JavaScript strings are modelled as `List Char`; the public API converts from
  `String` at the boundary.  JavaScript numbers holding digit-string values are
  modelled as `Nat` (all episode captures are at most 4 digits, hence exact).
* The JavaScript regular expressions are embedded as bespoke matching
  functions.  Each regex of the source is one `try...` function that attempts a
  match at the head of the list and reports the number of consumed characters
  together with the captured values; `execScan` mirrors `RegExp.exec` (leftmost
  match wins) and `scanReplaceFirst` mirrors `String.replace` with a
  non-global regex (first match replaced).  Greedy quantifiers with
  backtracking are resolved per pattern; each resolution is justified in a
  comment at the definition.
* JavaScript truthiness (`if (result.group)`, where both `null` and the empty
  string are falsy) is modelled by `truthyL`.
* The floating point confidence score is modelled as an exact rational; its
  numerators and denominators are tiny integers.
-/

namespace Zantetsu

/-- The set matched by the JavaScript regex class `\s` (and trimmed by
`String.prototype.trim`): ASCII whitespace, NBSP, BOM, the Unicode space
separators and the line separators. -/
def jsWs (c : Char) : Bool :=
  let n := c.toNat
  n = 0x20 || n = 0x9 || n = 0xA || n = 0xB || n = 0xC || n = 0xD ||
  n = 0xA0 || n = 0x1680 || (0x2000 ≤ n && n ≤ 0x200A) ||
  n = 0x2028 || n = 0x2029 || n = 0x202F || n = 0x205F || n = 0x3000 || n = 0xFEFF

/-- The JavaScript regex class `\w` (no `u` flag): `[A-Za-z0-9_]`. -/
def isWordChar (c : Char) : Bool :=
  c.isAlpha || c.isDigit || c = '_'

/-- Hexadecimal character, the class `[A-Fa-f0-9]` of `reCrc32`. -/
def isHexChar (c : Char) : Bool :=
  c.isDigit || ('A' ≤ c && c ≤ 'F') || ('a' ≤ c && c ≤ 'f')

/-- Numeric value of a digit string, as computed by `parseInt(s, 10)`. -/
def digitsToNat (l : List Char) : Nat :=
  l.foldl (fun a c => 10 * a + (c.toNat - 48)) 0

/-- `String.prototype.trim`: strip the `jsWs` characters from both ends. -/
def jsTrim (l : List Char) : List Char :=
  ((l.dropWhile jsWs).reverse.dropWhile jsWs).reverse

/-- Split a list at the first occurrence of `c` (which is dropped); `none`
when `c` does not occur.  This is `indexOf` plus the two halves. -/
def breakAtChar (c : Char) : List Char → Option (List Char × List Char)
  | [] => none
  | x :: xs =>
    if x = c then some ([], xs)
    else (breakAtChar c xs).map (fun p => (x :: p.1, p.2))

theorem breakAtChar_some_length {c : Char} :
    ∀ {l a b : List Char}, breakAtChar c l = some (a, b) → b.length < l.length := by
  intro l
  induction l with
  | nil => intro a b h; simp [breakAtChar] at h
  | cons x xs ih =>
    intro a b h
    simp only [breakAtChar] at h
    split at h
    · cases h; exact Nat.lt_succ_self _
    · cases hx : breakAtChar c xs with
      | none => rw [hx] at h; simp at h
      | some p =>
        rw [hx] at h
        simp only [Option.map] at h
        cases h
        have := ih (a := p.1) (b := p.2) (by simpa using hx)
        simpa using Nat.lt_trans this (Nat.lt_succ_self _)

theorem dropWhile_length_le (p : α → Bool) :
    ∀ l : List α, (l.dropWhile p).length ≤ l.length := by
  intro l
  induction l with
  | nil => simp [List.dropWhile]
  | cons x xs ih =>
    simp only [List.dropWhile]
    split
    · exact Nat.le_trans ih (Nat.le_succ _)
    · exact Nat.le_refl _

/-- JavaScript truthiness of a `string | null` value: `null` and `""` are
falsy. -/
def truthyL : Option (List Char) → Bool
  | none => false
  | some s => !s.isEmpty

/-- Substring containment, `String.prototype.includes(pat)` (case sensitive). -/
def listContains (l pat : List Char) : Bool :=
  (List.range (l.length + 1)).any (fun i => pat.isPrefixOf (l.drop i))

/-- First `some` produced by `f` over a list, in order (ordered backtracking
alternatives). -/
def firstSome (f : α → Option β) : List α → Option β
  | [] => none
  | a :: rest =>
    match f a with
    | some b => some b
    | none => firstSome f rest

/-- `RegExp.exec` for an unanchored regex: try the matcher at every start
position, left to right, first success wins.  The `Bool` argument tells the
matcher whether the current position is the start of the string (used only by
`reSeason`, whose pattern contains `^`). -/
def execScan (f : Bool → List Char → Option α) : Bool → List Char → Option α
  | st, [] => f st []
  | st, l@(_ :: rest) =>
    match f st l with
    | some r => some r
    | none => execScan f false rest

/-- `String.prototype.replace` with a non-global regex and replacement `' '`:
replace the leftmost match (its full extent, reported by the matcher as the
first component) by a single space. -/
def scanReplaceFirst (f : Bool → List Char → Option (Nat × α)) :
    Bool → List Char → List Char
  | st, [] =>
    match f st [] with
    | some (n, _) => ' ' :: ([] : List Char).drop n
    | none => []
  | st, c :: rest =>
    match f st (c :: rest) with
    | some (n, _) => ' ' :: ((c :: rest).drop n)
    | none => c :: scanReplaceFirst f false rest

/-! ## The episode / season / year regexes

Source patterns (from `JsHeuristicParser`):
```
reEpisode      = /(?:[\s\-.])(?:[Ee]p?\.?)?\s*(\d{1,4})(?:\b|v\d|[^\d])/
reEpisodeV     = /(?:[\s\-.])(?:[Ee]p?\.?)?\s*(\d{1,4})v(\d+)/i
reEpisodeRange = /(?:[\s\-.])(?:[Ee]p?\.?)?\s*(\d{1,4})\s*[-~]\s*(\d{1,4})/i
reSeason       = /(?:^|[\s\-])S(\d+)/i
reYear         = /\((\d{4})\)/
```
-/

/-- The leading delimiter class `[\s\-.]` shared by the episode patterns. -/
def isEpDelim (c : Char) : Bool :=
  jsWs c || c = '-' || c = '.'

/-- Candidate consumed lengths for the optional marker group `(?:[Ee]p?\.?)?`,
in JavaScript backtracking order (each optional item is greedy, so the longer
alternatives are tried first): `Ep.`, `Ep`, `E.`, `E`, then the empty match.
`ci` is the regex `i` flag, which lets `p?` also match `P` (`[Ee]` and `\.`
are case insensitive anyway). -/
def markerLens (ci : Bool) (l : List Char) : List Nat :=
  match l with
  | c :: rest =>
    if c = 'E' || c = 'e' then
      (match rest with
       | p :: rest2 =>
         (if p = 'p' || (ci && p = 'P') then
            (match rest2 with
             | d :: _ => if d = '.' then [3] else []
             | [] => []) ++ [2]
          else []) ++
         (if p = '.' then [2] else []) ++ [1, 0]
       | [] => [1, 0])
    else [0]
  | [] => [0]

/-- Match `reEpisodeV` at the head of `l`.  Returns
`(consumed, (episode, version))`.

Backtracking resolution: after the marker candidate, `\s*` may safely take its
maximal run because the next required item is a digit and no whitespace
character is a digit; `(\d{1,4})` must end exactly at the end of the maximal
digit run (the next required character `v` is not a digit, so stopping early
would leave a digit where `v` is required), hence a run longer than 4 digits
fails; `(\d+)` is final in the pattern and takes its maximal run. -/
def tryEpisodeV (_ : Bool) (l : List Char) : Option (Nat × (Nat × Nat)) :=
  match l with
  | d :: rest =>
    if isEpDelim d then
      firstSome (fun m =>
        let afterM := rest.drop m
        let wsn := (afterM.takeWhile jsWs).length
        let afterW := afterM.drop wsn
        let ds := afterW.takeWhile Char.isDigit
        if ds.length < 1 || 4 < ds.length then none
        else
          match afterW.drop ds.length with
          | v :: afterV =>
            if v = 'v' || v = 'V' then
              let vs := afterV.takeWhile Char.isDigit
              if vs.isEmpty then none
              else some (1 + m + wsn + ds.length + 1 + vs.length,
                         (digitsToNat ds, digitsToNat vs))
            else none
          | [] => none) (markerLens true rest)
    else none
  | [] => none

/-- Match `reEpisodeRange` at the head of `l`.  Returns
`(consumed, (start, stop))`.

Backtracking resolution: the first `(\d{1,4})` must end at the end of its
maximal digit run (the following items are `\s*` then `[-~]`, neither of which
matches a digit), so a run longer than 4 fails; both inner `\s*` take maximal
runs (`[-~]` and `\d` are not whitespace); the final `(\d{1,4})` is greedy
with no following item, so it takes the first `min 4` characters of its
maximal run. -/
def tryEpisodeRange (_ : Bool) (l : List Char) : Option (Nat × (Nat × Nat)) :=
  match l with
  | d :: rest =>
    if isEpDelim d then
      firstSome (fun m =>
        let a1 := rest.drop m
        let w1 := (a1.takeWhile jsWs).length
        let a2 := a1.drop w1
        let ds := a2.takeWhile Char.isDigit
        if ds.length < 1 || 4 < ds.length then none
        else
          let a3 := a2.drop ds.length
          let w2 := (a3.takeWhile jsWs).length
          let a4 := a3.drop w2
          match a4 with
          | s :: a5 =>
            if s = '-' || s = '~' then
              let w3 := (a5.takeWhile jsWs).length
              let a6 := a5.drop w3
              let es := (a6.takeWhile Char.isDigit).take 4
              if es.isEmpty then none
              else some (1 + m + w1 + ds.length + w2 + 1 + w3 + es.length,
                         (digitsToNat ds, digitsToNat es))
            else none
          | [] => none) (markerLens true rest)
    else none
  | [] => none

/-- Match `reEpisode` (the single-episode pattern, no `i` flag) at the head of
`l`.  Returns `(consumed, episode)`.

Backtracking resolution: as above `(\d{1,4})` must end at the end of its
maximal digit run (every alternative of the tail `(?:\b|v\d|[^\d])` rejects a
digit as the next character: a digit is a word character so `\b` fails between
two digits, `v\d` needs `v`, and `[^\d]` excludes digits), so a run longer
than 4 fails.  The tail alternatives are tried in order: `\b` (zero width)
succeeds when the next character is absent or not a word character; otherwise
`v\d` consumes two characters when applicable; otherwise `[^\d]` consumes the
next character, which here is a word character other than a digit, hence
matches. -/
def tryEpisodeSingle (_ : Bool) (l : List Char) : Option (Nat × Nat) :=
  match l with
  | d :: rest =>
    if isEpDelim d then
      firstSome (fun m =>
        let a1 := rest.drop m
        let wsn := (a1.takeWhile jsWs).length
        let a2 := a1.drop wsn
        let ds := a2.takeWhile Char.isDigit
        if ds.length < 1 || 4 < ds.length then none
        else
          let t : Nat :=
            match a2.drop ds.length with
            | [] => 0
            | c :: a4 =>
              if !isWordChar c then 0
              else if c = 'v' then
                match a4 with
                | c2 :: _ => if c2.isDigit then 2 else 1
                | [] => 1
              else 1
          some (1 + m + wsn + ds.length + t, digitsToNat ds)) (markerLens false rest)
    else none
  | [] => none

/-- The body `S(\d+)` of `reSeason` (with the `i` flag, `s` also matches);
`(\d+)` is final and takes its maximal run.  Returns `(consumed, value)`. -/
def trySeasonBody (l : List Char) : Option (Nat × Nat) :=
  match l with
  | c :: rest =>
    if c = 'S' || c = 's' then
      let ds := rest.takeWhile Char.isDigit
      if ds.isEmpty then none else some (1 + ds.length, digitsToNat ds)
    else none
  | [] => none

/-- Match `reSeason` at the current position.  The group `(?:^|[\s\-])` tries
the zero-width `^` first (only possible at the start of the string), then a
consumed whitespace-or-dash character. -/
def trySeason (atStart : Bool) (l : List Char) : Option (Nat × Nat) :=
  match (if atStart then trySeasonBody l else none) with
  | some r => some r
  | none =>
    match l with
    | c :: rest =>
      if jsWs c || c = '-' then
        (trySeasonBody rest).map (fun p => (p.1 + 1, p.2))
      else none
    | [] => none

/-- Match `reYear` (`\((\d{4})\)`) at the head of `l`: a parenthesized
exactly-4-digit token.  Returns `(consumed, value)`; the extent is 6. -/
def tryYear (_ : Bool) (l : List Char) : Option (Nat × Nat) :=
  match l with
  | '(' :: a :: b :: c :: d :: ')' :: _ =>
    if a.isDigit && b.isDigit && c.isDigit && d.isDigit then
      some (6, digitsToNat [a, b, c, d])
    else none
  | _ => none

/-- Match `reCrc32` (`\[([A-Fa-f0-9]{8})\]`) at the head of `l`: `[`, exactly
8 hexadecimal characters, `]`.  Returns the captured 8 characters. -/
def tryCrc32 (_ : Bool) (l : List Char) : Option (Nat × List Char) :=
  match l with
  | '[' :: rest =>
    let h := rest.take 8
    if h.length = 8 && h.all isHexChar then
      match rest.drop 8 with
      | ']' :: _ => some (10, h)
      | _ => none
    else none
  | _ => none

/-! ## Data model (from `src/bindings/node/src/types.ts`) -/

/-- `EpisodeSpec` tagged union.  The `multi` variant is declared in the public
type but, as claim C10 states, never produced by the parser. -/
inductive EpisodeSpec where
  | single (episode : Nat)
  | range (rstart rstop : Nat)
  | multi (episodes : List Nat)
  | versioned (episode version : Nat)
deriving DecidableEq, Repr

inductive Resolution where
  | SD480 | HD720 | FHD1080 | UHD2160
deriving DecidableEq, Repr

inductive VideoCodec where
  | H264 | HEVC | AV1 | VP9 | MPEG4
deriving DecidableEq, Repr

inductive AudioCodec where
  | FLAC | AAC | Opus | AC3 | DTS | MP3 | Vorbis | TrueHD | EAAC
deriving DecidableEq, Repr

inductive MediaSource where
  | BluRayRemux | BluRay | WebDL | WebRip | HDTV | DVD | LaserDisc | VHS
deriving DecidableEq, Repr

inductive ParseMode where
  | Full | Light | Auto
deriving DecidableEq, Repr

/-- The single error condition of the pipeline. -/
inductive ParseError where
  | emptyInput
deriving DecidableEq, Repr

deriving instance DecidableEq for Except

/-- The output record (`ParseResult` of `types.ts`).  `string | null` fields
are `Option (List Char)`; the number-valued `confidence` is an exact
rational. -/
structure ParseResult where
  input : List Char
  title : Option (List Char)
  group : Option (List Char)
  episode : Option EpisodeSpec
  season : Option Nat
  resolution : Option Resolution
  video_codec : Option VideoCodec
  audio_codec : Option AudioCodec
  source : Option MediaSource
  year : Option Nat
  crc32 : Option (List Char)
  extension : Option (List Char)
  version : Option Nat
  confidence : ℚ
  parse_mode : ParseMode
deriving DecidableEq, Repr

/-! ## Field extractors (from `JsHeuristicParser`) -/

/-- `extractGroup`: `reGroup = /^\[([^\]]+)\]/`, anchored at the start; the
captured interior (which `[^\]]+` makes nonempty and free of `]`, so the first
`]` closes the group) is returned trimmed. -/
def extractGroup (l : List Char) : Option (List Char) :=
  match l with
  | '[' :: rest =>
    match breakAtChar ']' rest with
    | some (interior, _) =>
      if interior.isEmpty then none else some (jsTrim interior)
    | none => none
  | _ => none

/-- `extractExtension`: `reExtension = /\.(\w+)$/`, lowercased capture.
The leftmost match of this end-anchored pattern sits at the last `.` of the
string: a match at an earlier `.` would need `(\w+)` to cover a later `.`,
which is not a word character; and if the text after the last `.` is empty or
contains a non-word character, no `.` can match at all. -/
def extractExtension (l : List Char) : Option (List Char) :=
  match breakAtChar '.' l.reverse with
  | some (revSuffix, _) =>
    let suf := revSuffix.reverse
    if !suf.isEmpty && suf.all isWordChar then some (suf.map Char.toLower)
    else none
  | none => none

/-- `extractCrc32`: first `[8 hex digits]` token, uppercased. -/
def extractCrc32 (l : List Char) : Option (List Char) :=
  (execScan tryCrc32 true l).map (fun p => p.2.map Char.toUpper)

/-- `extractResolution`: case-sensitive substring checks
(`String.prototype.includes`) in the fixed order 2160 → 1080 → 720 → 480,
each with `p` and `i` suffixes; first match wins.  (The declared
`reResolution` regex of the source is unused by this method.) -/
def extractResolution (l : List Char) : Option Resolution :=
  if listContains l ['2','1','6','0','p'] || listContains l ['2','1','6','0','i'] then
    some .UHD2160
  else if listContains l ['1','0','8','0','p'] || listContains l ['1','0','8','0','i'] then
    some .FHD1080
  else if listContains l ['7','2','0','p'] || listContains l ['7','2','0','i'] then
    some .HD720
  else if listContains l ['4','8','0','p'] || listContains l ['4','8','0','i'] then
    some .SD480
  else none

/-- `extractSeason`: first `reSeason` match, `parseInt` of the digits. -/
def extractSeason (l : List Char) : Option Nat :=
  (execScan trySeason true l).map (·.2)

/-- `extractYear`: first `reYear` match, `parseInt` of the digits. -/
def extractYear (l : List Char) : Option Nat :=
  (execScan tryYear true l).map (·.2)

/-- First `reEpisodeV` match: `(episode, version)` captures. -/
def execEpisodeV (l : List Char) : Option (Nat × Nat) :=
  (execScan tryEpisodeV true l).map (·.2)

/-- First `reEpisodeRange` match: `(start, stop)` captures. -/
def execEpisodeRange (l : List Char) : Option (Nat × Nat) :=
  (execScan tryEpisodeRange true l).map (·.2)

/-- First `reEpisode` match: episode capture. -/
def execEpisodeSingle (l : List Char) : Option Nat :=
  (execScan tryEpisodeSingle true l).map (·.2)

/-- `extractEpisode`: the episode resolver.  Versioned attempt first; then the
range attempt, whose match is kept only when `start < end`; then the single
attempt; otherwise `null`.  (In the source the `start < end` test guards an
early return inside the range branch, so both a failed range match and an
invalid pair fall through to the single attempt.) -/
def extractEpisode (l : List Char) : Option EpisodeSpec :=
  match execEpisodeV l with
  | some (e, v) => some (.versioned e v)
  | none =>
    match execEpisodeRange l with
    | some (a, b) =>
      if a < b then some (.range a b)
      else
        match execEpisodeSingle l with
        | some e => some (.single e)
        | none => none
    | none =>
      match execEpisodeSingle l with
      | some e => some (.single e)
      | none => none

/-! ## Title normalizer -/

/-- Fuel-based worker for the global replacement of `op`-to-first-`cl` spans
by one space (used with `[`/`]` and `(`/`)`).  Any fuel at least the length
of the list is enough: every step either consumes the head or a nonempty
prefix.  (Fuel recursion is used instead of well-founded recursion so that
the function reduces inside the kernel.) -/
def removeDelimAux (op cl : Char) : Nat → List Char → List Char
  | 0, l => l
  | fuel + 1, l =>
    match l with
    | [] => []
    | c :: rest =>
      if c = op then
        match breakAtChar cl rest with
        | some (_, after) => ' ' :: removeDelimAux op cl fuel after
        | none => c :: removeDelimAux op cl fuel rest
      else c :: removeDelimAux op cl fuel rest

/-- Global replacement of `op`-to-first-`cl` spans by one space. -/
def removeDelim (op cl : Char) (l : List Char) : List Char :=
  removeDelimAux op cl l.length l

/-- `work.replace(/\[[^\]]*\]/g, ' ')`: each leftmost `[`-to-first-`]` span
is replaced by one space, scanning resuming after the replaced span (the
replacement is not rescanned).  A `[` with no later `]` cannot start a match
and is kept. -/
def removeBrackets (l : List Char) : List Char :=
  removeDelim '[' ']' l

/-- `work.replace(/\([^\)]*\)/g, ' ')`, the parenthesized analogue. -/
def removeParens (l : List Char) : List Char :=
  removeDelim '(' ')' l

/-- The character replacements `.replace(/[._]/g, ' ')` and then
`.replace(<dash>/g, ' ')`: dots, underscores and dashes become spaces. -/
def replDelim (c : Char) : Char :=
  if c = '.' || c = '_' || c = '-' then ' ' else c

/-- Fuel-based worker for `wsSplit`; any fuel at least the length of the
list is enough. -/
def wsSplitAux : Nat → List Char → List (List Char)
  | 0, _ => []
  | fuel + 1, l =>
    match l with
    | [] => []
    | c :: rest =>
      if jsWs c then wsSplitAux fuel rest
      else (c :: rest.takeWhile (fun x => !jsWs x)) ::
             wsSplitAux fuel (rest.dropWhile (fun x => !jsWs x))

/-- `split(/\s+/)` followed by `filter(Boolean)`: the maximal runs of
non-whitespace characters, in order. -/
def wsSplit (l : List Char) : List (List Char) :=
  wsSplitAux l.length l

/-- `join(' ')`: concatenate words with a single space between consecutive
words. -/
def joinWords : List (List Char) → List Char
  | [] => []
  | [w] => w
  | w :: rest => w ++ ' ' :: joinWords rest

/-- The final cleanup of `extractTitle`: `replDelim` on every character, then
`.split(/\s+/).filter(Boolean).join(' ').trim()`. -/
def cleanup (l : List Char) : List Char :=
  jsTrim (joinWords (wsSplit (l.map replDelim)))

/-- Index of the last occurrence of `pat` as a substring
(`String.prototype.lastIndexOf`). -/
def findLastSub (pat l : List Char) : Option Nat :=
  ((List.range (l.length + 1)).filter (fun i => pat.isPrefixOf (l.drop i))).getLast?

/-- First stage of `extractTitle`: when the group field is truthy, drop
everything up to and including the first `]` (`work.indexOf(']')`). -/
def stripGroupTag (group : Option (List Char)) (w : List Char) : List Char :=
  if truthyL group then
    match breakAtChar ']' w with
    | some (_, after) => after
    | none => w
  else w

/-- Second stage of `extractTitle`: when the extension field is truthy, cut
the string at the last occurrence of `.<extension>`
(`work.lastIndexOf('.' + ext)` then `substring(0, pos)`). -/
def stripExtension (extension : Option (List Char)) (w : List Char) : List Char :=
  if truthyL extension then
    match findLastSub ('.' :: extension.getD []) w with
    | some i => w.take i
    | none => w
  else w

/-- Third stage of `extractTitle`: replace the first match of each episode
pattern, then of the season pattern, then of the year pattern, by a space
(five `replace` calls with non-global regexes, in source order). -/
def removeMatches (w : List Char) : List Char :=
  scanReplaceFirst tryYear true
    (scanReplaceFirst trySeason true
      (scanReplaceFirst tryEpisodeSingle true
        (scanReplaceFirst tryEpisodeRange true
          (scanReplaceFirst tryEpisodeV true w))))

/-- `cleaned || null` of the source: an empty cleaned title becomes `null`. -/
def titleOf (c : List Char) : Option (List Char) :=
  if c.isEmpty then none else some c

/-- `extractTitle`: starting from the input, drop the group prefix, drop the
trailing `.<extension>`, replace the first match of each episode/season/year
pattern by a space, remove bracketed and parenthesized spans, clean up
separators and whitespace.  An empty result is `null`. -/
def extractTitle (input : List Char) (group extension : Option (List Char)) :
    Option (List Char) :=
  titleOf (cleanup (removeParens (removeBrackets
    (removeMatches (stripExtension extension (stripGroupTag group input))))))

/-- The title-normalization pass as a function of one string: `extractTitle`
fed with the group and extension extracted from that same string.  `parse`
computes the title of `trimmed` as exactly `normalizeTitle trimmed`. -/
def normalizeTitle (l : List Char) : Option (List Char) :=
  extractTitle l (extractGroup l) (extractExtension l)

/-! ## Confidence scorer and orchestrator -/

/-- `Math.min` on the rational model of JavaScript numbers. -/
def jsMin (a b : ℚ) : ℚ := if a ≤ b then a else b

/-- `computeConfidence`: weighted presence ratio.  JavaScript truthiness
(`if (result.title)`, `if (result.group)`) treats an empty string like
`null`. -/
def computeConfidence (r : ParseResult) : ℚ :=
  let fieldsTotal : ℚ := 7 + (if truthyL r.title then 1 else 0)
  let fieldsPresent : ℚ :=
    (if truthyL r.title then 2 else 0) +
    (if truthyL r.group then 1 else 0) +
    (if r.episode.isSome then 1 else 0) +
    (if r.resolution.isSome then 1 else 0) +
    (if r.video_codec.isSome then 1 else 0) +
    (if r.audio_codec.isSome then 1 else 0) +
    (if r.source.isSome then 1 else 0)
  jsMin (fieldsPresent / fieldsTotal) 1

/-- The result record before confidence scoring, as `JsHeuristicParser.parse`
builds it on the trimmed input: all extractors run on the same string, the
title consumes the freshly extracted group and extension (which is exactly
`normalizeTitle`), and the codec/source fields are never assigned by the
JavaScript parser — they keep their `null` initial values, as does
`version`; `parse_mode` is the constant `'Light'`. -/
def baseResult (t : List Char) : ParseResult :=
  { input := t
    title := normalizeTitle t
    group := extractGroup t
    episode := extractEpisode t
    season := extractSeason t
    resolution := extractResolution t
    video_codec := none
    audio_codec := none
    source := none
    year := extractYear t
    crc32 := extractCrc32 t
    extension := extractExtension t
    version := none
    confidence := 0
    parse_mode := .Light }

/-- `JsHeuristicParser.parse` after the emptiness check: the record with its
confidence filled in last (`result.confidence = this.computeConfidence(result)`). -/
def parseCore (t : List Char) : ParseResult :=
  { baseResult t with confidence := computeConfidence (baseResult t) }

theorem baseResult_title (t : List Char) : (baseResult t).title = normalizeTitle t := by
  simp only [baseResult]

theorem baseResult_group (t : List Char) : (baseResult t).group = extractGroup t := by
  simp only [baseResult]

theorem baseResult_episode (t : List Char) :
    (baseResult t).episode = extractEpisode t := by
  simp only [baseResult]

theorem baseResult_resolution (t : List Char) :
    (baseResult t).resolution = extractResolution t := by
  simp only [baseResult]

theorem baseResult_codecs (t : List Char) :
    (baseResult t).video_codec = none ∧ (baseResult t).audio_codec = none ∧
      (baseResult t).source = none := by
  simp [baseResult]

theorem parseCore_title (t : List Char) : (parseCore t).title = normalizeTitle t := by
  simp only [parseCore, baseResult]

theorem parseCore_group (t : List Char) : (parseCore t).group = extractGroup t := by
  simp only [parseCore, baseResult]

theorem parseCore_episode (t : List Char) :
    (parseCore t).episode = extractEpisode t := by
  simp only [parseCore, baseResult]

theorem parseCore_season (t : List Char) :
    (parseCore t).season = extractSeason t := by
  simp only [parseCore, baseResult]

theorem parseCore_resolution (t : List Char) :
    (parseCore t).resolution = extractResolution t := by
  simp only [parseCore, baseResult]

theorem parseCore_codecs (t : List Char) :
    (parseCore t).video_codec = none ∧ (parseCore t).audio_codec = none ∧
      (parseCore t).source = none := by
  simp [parseCore, baseResult]

theorem parseCore_confidence (t : List Char) :
    (parseCore t).confidence = computeConfidence (baseResult t) := by
  simp only [parseCore]

/-- The public `parse`: trim, reject empty, run the pipeline.  (The
`HeuristicParser.parse` wrapper checks `!input.trim()` with the same
semantics before delegating; the native-module dispatch is outside the
analyzed reference pipeline.) -/
def parse (input : String) : Except ParseError ParseResult :=
  if (jsTrim input.data).isEmpty then .error .emptyInput
  else .ok (parseCore (jsTrim input.data))

/-- `parseBatch`: `inputs.map(input => this.parse(input))`.  A thrown
`EmptyInput` aborts the whole `map`; the explicit recursion carries the first
error out, exactly like exception propagation through `Array.prototype.map`. -/
def parseBatch (inputs : List String) : Except ParseError (List ParseResult) :=
  match inputs with
  | [] => .ok []
  | s :: rest =>
    match parse s with
    | .error e => .error e
    | .ok r =>
      match parseBatch rest with
      | .error e => .error e
      | .ok rs => .ok (r :: rs)

/-! ## Supporting lemmas for the title-normalizer analysis -/

theorem breakAtChar_some_eq {c : Char} :
    ∀ {l a b : List Char}, breakAtChar c l = some (a, b) → l = a ++ c :: b ∧ c ∉ a := by
  intro l
  induction l with
  | nil => intro a b h; simp [breakAtChar] at h
  | cons x xs ih =>
    intro a b h
    simp only [breakAtChar] at h
    split at h
    · rename_i hx
      cases h
      exact ⟨by simp [hx], by simp⟩
    · rename_i hx
      cases hb : breakAtChar c xs with
      | none => rw [hb] at h; simp at h
      | some p =>
        rw [hb] at h
        simp only [Option.map] at h
        cases h
        obtain ⟨h1, h2⟩ := ih (by simpa using hb)
        refine ⟨by rw [List.cons_append, ← h1], ?_⟩
        intro hmem
        rcases List.mem_cons.mp hmem with h3 | h3
        · exact hx h3.symm
        · exact h2 h3

theorem breakAtChar_none_of_not_mem {c : Char} :
    ∀ {l : List Char}, c ∉ l → breakAtChar c l = none := by
  intro l
  induction l with
  | nil => intro _; rfl
  | cons x xs ih =>
    intro h
    simp only [breakAtChar]
    have hxc : ¬ x = c := fun hx => h (by rw [hx]; exact List.mem_cons_self c xs)
    rw [if_neg hxc, ih (fun hx => h (List.mem_cons_of_mem x hx))]
    rfl

theorem firstSome_none {f : α → Option β} :
    ∀ {L : List α}, (∀ a ∈ L, f a = none) → firstSome f L = none := by
  intro L
  induction L with
  | nil => intro _; rfl
  | cons a rest ih =>
    intro h
    simp only [firstSome]
    rw [h a (by simp)]
    exact ih (fun x hx => h x (by simp [hx]))

theorem wsSplitAux_eq (f : Nat) :
    ∀ l : List Char, l.length ≤ f → wsSplitAux f l = wsSplit l := by
  induction f using Nat.strong_induction_on with
  | _ f ih =>
    intro l hl
    cases f with
    | zero =>
      have : l = [] := List.length_eq_zero.mp (Nat.le_zero.mp hl)
      subst this; rfl
    | succ f =>
      cases l with
      | nil => rfl
      | cons c rest =>
        have hrest : rest.length ≤ f := by simpa using hl
        show _ = wsSplitAux (rest.length + 1) (c :: rest)
        simp only [wsSplitAux]
        split
        · rw [ih f (Nat.lt_succ_self f) rest hrest,
              ih rest.length (by omega) rest (Nat.le_refl _)]
        · rw [ih f (Nat.lt_succ_self f) (rest.dropWhile (fun x => !jsWs x))
              (Nat.le_trans (dropWhile_length_le _ rest) hrest),
            ih rest.length (by omega) (rest.dropWhile (fun x => !jsWs x))
              (dropWhile_length_le _ rest)]

theorem wsSplit_nil : wsSplit [] = [] := rfl

theorem wsSplit_cons_ws {c : Char} (rest : List Char) (h : jsWs c = true) :
    wsSplit (c :: rest) = wsSplit rest := by
  show wsSplitAux (rest.length + 1) (c :: rest) = wsSplit rest
  simp only [wsSplitAux]
  rw [if_pos h]
  exact wsSplitAux_eq rest.length rest (Nat.le_refl _)

theorem wsSplit_cons_nws {c : Char} (rest : List Char) (h : jsWs c = false) :
    wsSplit (c :: rest) =
      (c :: rest.takeWhile (fun x => !jsWs x)) ::
        wsSplit (rest.dropWhile (fun x => !jsWs x)) := by
  show wsSplitAux (rest.length + 1) (c :: rest) = _
  simp only [wsSplitAux]
  rw [if_neg (by simp [h])]
  rw [wsSplitAux_eq rest.length (rest.dropWhile (fun x => !jsWs x))
    (dropWhile_length_le _ rest)]

theorem removeDelimAux_eq (op cl : Char) (f : Nat) :
    ∀ l : List Char, l.length ≤ f → removeDelimAux op cl f l = removeDelim op cl l := by
  induction f using Nat.strong_induction_on with
  | _ f ih =>
    intro l hl
    cases f with
    | zero =>
      have : l = [] := List.length_eq_zero.mp (Nat.le_zero.mp hl)
      subst this; rfl
    | succ f =>
      cases l with
      | nil => rfl
      | cons c rest =>
        have hrest : rest.length ≤ f := by simpa using hl
        show _ = removeDelimAux op cl (rest.length + 1) (c :: rest)
        simp only [removeDelimAux]
        split
        · cases hb : breakAtChar cl rest with
          | some p =>
            have hlen : p.2.length ≤ rest.length :=
              Nat.le_of_lt (breakAtChar_some_length (a := p.1) (b := p.2)
                (by simpa using hb))
            dsimp only
            rw [ih f (Nat.lt_succ_self f) p.2 (Nat.le_trans hlen hrest),
              ih rest.length (by omega) p.2 hlen]
          | none =>
            dsimp only
            rw [ih f (Nat.lt_succ_self f) rest hrest,
              ih rest.length (by omega) rest (Nat.le_refl _)]
        · rw [ih f (Nat.lt_succ_self f) rest hrest,
            ih rest.length (by omega) rest (Nat.le_refl _)]

theorem removeDelim_nil (op cl : Char) : removeDelim op cl [] = [] := rfl

theorem removeDelim_cons_break {op cl c : Char} {rest a b : List Char}
    (hc : c = op) (hb : breakAtChar cl rest = some (a, b)) :
    removeDelim op cl (c :: rest) = ' ' :: removeDelim op cl b := by
  show removeDelimAux op cl (rest.length + 1) (c :: rest) = _
  simp only [removeDelimAux]
  rw [if_pos hc, hb]
  dsimp only
  rw [removeDelimAux_eq op cl rest.length b (Nat.le_of_lt (breakAtChar_some_length hb))]

theorem removeDelim_cons_nobreak {op cl c : Char} {rest : List Char}
    (hc : c = op) (hb : breakAtChar cl rest = none) :
    removeDelim op cl (c :: rest) = c :: removeDelim op cl rest := by
  show removeDelimAux op cl (rest.length + 1) (c :: rest) = _
  simp only [removeDelimAux]
  rw [if_pos hc, hb]
  dsimp only
  rw [removeDelimAux_eq op cl rest.length rest (Nat.le_refl _)]

theorem removeDelim_cons_ne {op cl c : Char} {rest : List Char} (hc : ¬ c = op) :
    removeDelim op cl (c :: rest) = c :: removeDelim op cl rest := by
  show removeDelimAux op cl (rest.length + 1) (c :: rest) = _
  simp only [removeDelimAux]
  rw [if_neg hc, removeDelimAux_eq op cl rest.length rest (Nat.le_refl _)]

/-- The subsequence of `op`/`cl` characters of a string. -/
def projPair (op cl : Char) (l : List Char) : List Char :=
  l.filter (fun c => c = op || c = cl)

/-- No `op` character is followed (anywhere later) by a `cl` character.
Over the two-character projection this is exactly pairwise avoidance of an
`op`-before-`cl` pair. -/
def DelimOk (op cl : Char) (l : List Char) : Prop :=
  (projPair op cl l).Pairwise (fun a b => ¬(a = op ∧ b = cl))

theorem not_mem_of_breakAtChar_none {c : Char} :
    ∀ {l : List Char}, breakAtChar c l = none → c ∉ l := by
  intro l
  induction l with
  | nil => intro _; simp
  | cons x xs ih =>
    intro h hmem
    simp only [breakAtChar] at h
    split at h
    · cases h
    · rename_i hx
      cases hb : breakAtChar c xs with
      | some p => rw [hb] at h; simp [Option.map] at h
      | none =>
        rcases List.mem_cons.mp hmem with h1 | h1
        · exact hx h1.symm
        · exact ih hb h1

theorem mem_removeDelim (op cl : Char) (n : Nat) :
    ∀ l : List Char, l.length ≤ n → ∀ x, x ∈ removeDelim op cl l → x ∈ l ∨ x = ' ' := by
  induction n using Nat.strong_induction_on with
  | _ n ih =>
    intro l hl x hx
    cases l with
    | nil => rw [removeDelim_nil] at hx; cases hx
    | cons c rest =>
      have hrl : rest.length < n := by
        have := hl; simp only [List.length_cons] at this; omega
      by_cases hc : c = op
      · cases hb : breakAtChar cl rest with
        | some p =>
          obtain ⟨a, b⟩ := p
          rw [removeDelim_cons_break hc hb] at hx
          rcases List.mem_cons.mp hx with h1 | h1
          · exact Or.inr h1
          · have hblen : b.length ≤ rest.length :=
              Nat.le_of_lt (breakAtChar_some_length hb)
            rcases ih rest.length hrl b hblen x h1 with h2 | h2
            · refine Or.inl (List.mem_cons_of_mem c ?_)
              rw [(breakAtChar_some_eq hb).1]
              exact List.mem_append_right a (List.mem_cons_of_mem cl h2)
            · exact Or.inr h2
        | none =>
          rw [removeDelim_cons_nobreak hc hb] at hx
          rcases List.mem_cons.mp hx with h1 | h1
          · exact Or.inl (h1 ▸ List.mem_cons_self c rest)
          · rcases ih rest.length hrl rest (Nat.le_refl _) x h1 with h2 | h2
            · exact Or.inl (List.mem_cons_of_mem c h2)
            · exact Or.inr h2
      · rw [removeDelim_cons_ne hc] at hx
        rcases List.mem_cons.mp hx with h1 | h1
        · exact Or.inl (h1 ▸ List.mem_cons_self c rest)
        · rcases ih rest.length hrl rest (Nat.le_refl _) x h1 with h2 | h2
          · exact Or.inl (List.mem_cons_of_mem c h2)
          · exact Or.inr h2

theorem DelimOk_removeDelim (op cl : Char) (hops : ¬ op = ' ') (hcls : ¬ cl = ' ')
    (hco : ¬ cl = op) (n : Nat) :
    ∀ l : List Char, l.length ≤ n → DelimOk op cl (removeDelim op cl l) := by
  induction n using Nat.strong_induction_on with
  | _ n ih =>
    intro l hl
    cases l with
    | nil => rw [removeDelim_nil]; exact List.Pairwise.nil
    | cons c rest =>
      have hrl : rest.length < n := by
        have := hl; simp only [List.length_cons] at this; omega
      by_cases hc : c = op
      · cases hb : breakAtChar cl rest with
        | some p =>
          obtain ⟨a, b⟩ := p
          rw [removeDelim_cons_break hc hb]
          have hsp : ((' ' : Char) = op || (' ' : Char) = cl) = false := by
            simp only [Bool.or_eq_false_iff, decide_eq_false_iff_not]
            exact ⟨fun h => hops h.symm, fun h => hcls h.symm⟩
          unfold DelimOk projPair
          rw [List.filter_cons, if_neg (by simp [hsp])]
          exact ih rest.length hrl b
            (Nat.le_of_lt (breakAtChar_some_length hb))
        | none =>
          rw [removeDelim_cons_nobreak hc hb]
          have hclrest : cl ∉ rest := not_mem_of_breakAtChar_none hb
          unfold DelimOk projPair
          rw [List.filter_cons, if_pos (by simp [hc])]
          refine List.Pairwise.cons ?_ (ih rest.length hrl rest (Nat.le_refl _))
          intro y hy hcontra
          have hy2 : y ∈ removeDelim op cl rest := List.mem_of_mem_filter hy
          rcases mem_removeDelim op cl rest.length rest (Nat.le_refl _) y hy2 with h2 | h2
          · rw [hcontra.2] at h2; exact hclrest h2
          · rw [hcontra.2] at h2; exact hcls h2
      · rw [removeDelim_cons_ne hc]
        unfold DelimOk projPair
        rw [List.filter_cons]
        split
        · rename_i hkeep
          have hccl : c = cl := by
            rcases (by simpa using hkeep : c = op ∨ c = cl) with h1 | h1
            · exact absurd h1 hc
            · exact h1
          refine List.Pairwise.cons ?_ (ih rest.length hrl rest (Nat.le_refl _))
          intro y hy hcontra
          exact hco (hccl ▸ hcontra.1)
        · exact ih rest.length hrl rest (Nat.le_refl _)

theorem DelimOk_tail {op cl c : Char} {rest : List Char}
    (h : DelimOk op cl (c :: rest)) : DelimOk op cl rest := by
  unfold DelimOk projPair at h ⊢
  rw [List.filter_cons] at h
  split at h
  · exact h.of_cons
  · exact h

theorem removeDelim_id_of_DelimOk (op cl : Char) (hcls : ¬ cl = ' ') (n : Nat) :
    ∀ l : List Char, l.length ≤ n → DelimOk op cl l → removeDelim op cl l = l := by
  induction n using Nat.strong_induction_on with
  | _ n ih =>
    intro l hl hok
    cases l with
    | nil => rfl
    | cons c rest =>
      have hrl : rest.length < n := by
        have := hl; simp only [List.length_cons] at this; omega
      by_cases hc : c = op
      · cases hb : breakAtChar cl rest with
        | some p =>
          obtain ⟨a, b⟩ := p
          exfalso
          have hclrest : cl ∈ rest := by
            rw [(breakAtChar_some_eq hb).1]
            exact List.mem_append_right a (List.mem_cons_self cl b)
          have hclproj : cl ∈ projPair op cl rest :=
            List.mem_filter.mpr ⟨hclrest, by simp⟩
          unfold DelimOk projPair at hok
          rw [List.filter_cons, if_pos (by simp [hc])] at hok
          exact (List.pairwise_cons.mp hok).1 cl hclproj ⟨hc, rfl⟩
        | none =>
          rw [removeDelim_cons_nobreak hc hb,
            ih rest.length hrl rest (Nat.le_refl _) (DelimOk_tail hok)]
      · rw [removeDelim_cons_ne hc,
          ih rest.length hrl rest (Nat.le_refl _) (DelimOk_tail hok)]

theorem projPair_removeDelim_sublist (op' cl' op cl : Char)
    (hops : ¬ op' = ' ') (hcls : ¬ cl' = ' ') (n : Nat) :
    ∀ l : List Char, l.length ≤ n →
      (projPair op' cl' (removeDelim op cl l)).Sublist (projPair op' cl' l) := by
  induction n using Nat.strong_induction_on with
  | _ n ih =>
    intro l hl
    cases l with
    | nil => rw [removeDelim_nil]
    | cons c rest =>
      have hrl : rest.length < n := by
        have := hl; simp only [List.length_cons] at this; omega
      by_cases hc : c = op
      · cases hb : breakAtChar cl rest with
        | some p =>
          obtain ⟨a, b⟩ := p
          rw [removeDelim_cons_break hc hb]
          have hsp : ((' ' : Char) = op' || (' ' : Char) = cl') = false := by
            simp only [Bool.or_eq_false_iff, decide_eq_false_iff_not]
            exact ⟨fun h => hops h.symm, fun h => hcls h.symm⟩
          unfold projPair
          rw [List.filter_cons, if_neg (by simp [hsp])]
          have h1 : (projPair op' cl' b).Sublist (projPair op' cl' rest) := by
            rw [(breakAtChar_some_eq hb).1]
            unfold projPair
            rw [List.filter_append]
            refine List.Sublist.trans ?_ (List.sublist_append_right _ _)
            rw [List.filter_cons]
            split
            · exact List.sublist_cons_self _ _
            · exact List.Sublist.refl _
          refine List.Sublist.trans
            (List.Sublist.trans
              (ih rest.length hrl b (Nat.le_of_lt (breakAtChar_some_length hb))) h1) ?_
          unfold projPair
          rw [List.filter_cons]
          split
          · exact List.sublist_cons_self _ _
          · exact List.Sublist.refl _
        | none =>
          rw [removeDelim_cons_nobreak hc hb]
          unfold projPair
          rw [List.filter_cons, List.filter_cons]
          split
          · exact (ih rest.length hrl rest (Nat.le_refl _)).cons₂ _
          · exact ih rest.length hrl rest (Nat.le_refl _)
      · rw [removeDelim_cons_ne hc]
        unfold projPair
        rw [List.filter_cons, List.filter_cons]
        split
        · exact (ih rest.length hrl rest (Nat.le_refl _)).cons₂ _
        · exact ih rest.length hrl rest (Nat.le_refl _)

theorem takeWhile_append_of_all {p : α → Bool} :
    ∀ {w r : List α}, (∀ c ∈ w, p c = true) → (w ++ r).takeWhile p = w ++ r.takeWhile p := by
  intro w
  induction w with
  | nil => intro r _; rfl
  | cons c w' ih =>
    intro r h
    simp only [List.cons_append, List.takeWhile_cons, h c (by simp)]
    simp [ih (fun x hx => h x (by simp [hx]))]

theorem dropWhile_append_of_all {p : α → Bool} :
    ∀ {w r : List α}, (∀ c ∈ w, p c = true) → (w ++ r).dropWhile p = r.dropWhile p := by
  intro w
  induction w with
  | nil => intro r _; rfl
  | cons c w' ih =>
    intro r h
    simp only [List.cons_append, List.dropWhile_cons, h c (by simp)]
    simp [ih (fun x hx => h x (by simp [hx]))]

theorem space_cond_false {op cl : Char} (hops : ¬ op = ' ') (hcls : ¬ cl = ' ') :
    ((' ' : Char) = op || (' ' : Char) = cl) = false := by
  simp only [Bool.or_eq_false_iff, decide_eq_false_iff_not]
  exact ⟨fun h => hops h.symm, fun h => hcls h.symm⟩

theorem projPair_map_replDelim (op cl : Char)
    (hop1 : replDelim op = op) (hops : ¬ op = ' ')
    (hcl1 : replDelim cl = cl) (hcls : ¬ cl = ' ') :
    ∀ l : List Char, projPair op cl (l.map replDelim) = projPair op cl l := by
  intro l
  induction l with
  | nil => rfl
  | cons c rest ih =>
    simp only [List.map_cons]
    unfold projPair at ih ⊢
    rw [List.filter_cons, List.filter_cons]
    by_cases hd : (c = '.' || c = '_' || c = '-') = true
    · have hrc : replDelim c = ' ' := by unfold replDelim; rw [if_pos hd]
      rw [hrc]
      have hcne : ¬ c = op := by
        intro hco
        subst hco
        rw [hop1] at hrc
        exact hops hrc
      have hcne2 : ¬ c = cl := by
        intro hco
        subst hco
        rw [hcl1] at hrc
        exact hcls hrc
      rw [show ((' ' : Char) = op || (' ' : Char) = cl) = false from
          space_cond_false hops hcls,
        show ((c = op || c = cl) : Bool) = false by simp [hcne, hcne2]]
      simpa using ih
    · have hrc : replDelim c = c := by unfold replDelim; rw [if_neg hd]
      rw [hrc]
      split
      · rw [ih]
      · exact ih

theorem projPair_joinWords (op cl : Char) (hops : ¬ op = ' ') (hcls : ¬ cl = ' ') :
    ∀ ws : List (List Char), projPair op cl (joinWords ws) = projPair op cl ws.flatten := by
  intro ws
  induction ws with
  | nil => rfl
  | cons w rest ih =>
    cases rest with
    | nil => simp [joinWords, projPair]
    | cons w2 rest2 =>
      show projPair op cl (w ++ ' ' :: joinWords (w2 :: rest2)) = _
      unfold projPair at ih ⊢
      simp only [List.flatten_cons, List.filter_append, List.filter_cons]
      rw [show ((' ' : Char) = op || (' ' : Char) = cl) = false from
        space_cond_false hops hcls]
      simp only [Bool.false_eq_true, if_false]
      rw [ih]
      simp [List.filter_append]

theorem projPair_wsSplit_join (op cl : Char)
    (hopw : jsWs op = false) (hclw : jsWs cl = false) (n : Nat) :
    ∀ y : List Char, y.length ≤ n →
      projPair op cl (wsSplit y).flatten = projPair op cl y := by
  induction n using Nat.strong_induction_on with
  | _ n ih =>
    intro y hy
    cases y with
    | nil => rfl
    | cons c rest =>
      have hrl : rest.length < n := by
        have := hy; simp only [List.length_cons] at this; omega
      by_cases hcw : jsWs c = true
      · rw [wsSplit_cons_ws rest hcw, ih rest.length hrl rest (Nat.le_refl _)]
        unfold projPair
        rw [List.filter_cons, if_neg ?_]
        intro hmem
        rcases (by simpa using hmem : c = op ∨ c = cl) with h | h
        · rw [h, hopw] at hcw; cases hcw
        · rw [h, hclw] at hcw; cases hcw
      · have hcw' : jsWs c = false := by simpa using hcw
        rw [wsSplit_cons_nws rest hcw']
        simp only [List.flatten_cons, List.cons_append]
        have hdw : (rest.dropWhile (fun x => !jsWs x)).length ≤ rest.length :=
          dropWhile_length_le _ rest
        unfold projPair
        rw [List.filter_cons, List.filter_cons]
        have htail : List.filter (fun x => x = op || x = cl)
            (rest.takeWhile (fun x => !jsWs x) ++
              (wsSplit (rest.dropWhile (fun x => !jsWs x))).flatten) =
            List.filter (fun x => x = op || x = cl) rest := by
          rw [List.filter_append]
          have h2 := ih rest.length hrl (rest.dropWhile (fun x => !jsWs x)) hdw
          unfold projPair at h2
          rw [h2, ← List.filter_append, List.takeWhile_append_dropWhile]
        rw [htail]

theorem projPair_dropWhile_ws (op cl : Char)
    (hopw : jsWs op = false) (hclw : jsWs cl = false) :
    ∀ z : List Char, projPair op cl (z.dropWhile jsWs) = projPair op cl z := by
  intro z
  induction z with
  | nil => rfl
  | cons c rest ih =>
    rw [List.dropWhile_cons]
    split
    · rename_i hcw
      rw [ih]
      unfold projPair
      rw [List.filter_cons, if_neg ?_]
      intro hmem
      rcases (by simpa using hmem : c = op ∨ c = cl) with h | h
      · rw [h, hopw] at hcw; cases hcw
      · rw [h, hclw] at hcw; cases hcw
    · rfl

theorem projPair_reverse (op cl : Char) (z : List Char) :
    projPair op cl z.reverse = (projPair op cl z).reverse := by
  unfold projPair
  exact List.filter_reverse _ _

theorem projPair_jsTrim (op cl : Char)
    (hopw : jsWs op = false) (hclw : jsWs cl = false) (z : List Char) :
    projPair op cl (jsTrim z) = projPair op cl z := by
  unfold jsTrim
  rw [projPair_reverse, projPair_dropWhile_ws op cl hopw hclw, projPair_reverse,
    List.reverse_reverse, projPair_dropWhile_ws op cl hopw hclw]

theorem projPair_cleanup (op cl : Char)
    (hop1 : replDelim op = op) (hops : ¬ op = ' ') (hopw : jsWs op = false)
    (hcl1 : replDelim cl = cl) (hcls : ¬ cl = ' ') (hclw : jsWs cl = false)
    (l : List Char) : projPair op cl (cleanup l) = projPair op cl l := by
  unfold cleanup
  rw [projPair_jsTrim op cl hopw hclw, projPair_joinWords op cl hops hcls,
    projPair_wsSplit_join op cl hopw hclw (l.map replDelim).length _ (Nat.le_refl _),
    projPair_map_replDelim op cl hop1 hops hcl1 hcls]

theorem takeWhile_eq_self_of_all {p : α → Bool} :
    ∀ {w : List α}, (∀ c ∈ w, p c = true) → w.takeWhile p = w := by
  intro w
  induction w with
  | nil => intro _; rfl
  | cons c w' ih =>
    intro h
    rw [List.takeWhile_cons, h c (by simp)]
    simp [ih (fun x hx => h x (by simp [hx]))]

theorem dropWhile_eq_nil_of_all {p : α → Bool} :
    ∀ {w : List α}, (∀ c ∈ w, p c = true) → w.dropWhile p = [] := by
  intro w
  induction w with
  | nil => intro _; rfl
  | cons c w' ih =>
    intro h
    rw [List.dropWhile_cons, h c (by simp)]
    simp [ih (fun x hx => h x (by simp [hx]))]

theorem mem_of_head? {l : List α} {c : α} (h : l.head? = some c) : c ∈ l := by
  cases l with
  | nil => cases h
  | cons x rest =>
    simp only [List.head?_cons, Option.some_inj] at h
    rw [← h]
    exact List.mem_cons_self x rest

theorem wsSplit_good (n : Nat) :
    ∀ l : List Char, l.length ≤ n → ∀ w ∈ wsSplit l,
      w ≠ [] ∧ ∀ c ∈ w, jsWs c = false ∧ c ∈ l := by
  induction n using Nat.strong_induction_on with
  | _ n ih =>
    intro l hl w hw
    cases l with
    | nil => rw [wsSplit_nil] at hw; cases hw
    | cons c rest =>
      have hrl : rest.length < n := by
        have := hl; simp only [List.length_cons] at this; omega
      by_cases hcw : jsWs c = true
      · rw [wsSplit_cons_ws rest hcw] at hw
        obtain ⟨h1, h2⟩ := ih rest.length hrl rest (Nat.le_refl _) w hw
        exact ⟨h1, fun x hx => ⟨(h2 x hx).1, List.mem_cons_of_mem c (h2 x hx).2⟩⟩
      · have hcw' : jsWs c = false := by simpa using hcw
        rw [wsSplit_cons_nws rest hcw'] at hw
        rcases List.mem_cons.mp hw with h1 | h1
        · subst h1
          refine ⟨by simp, ?_⟩
          intro x hx
          rcases List.mem_cons.mp hx with h2 | h2
          · subst h2; exact ⟨hcw', List.mem_cons_self _ _⟩
          · have hxw := List.mem_takeWhile_imp (p := fun y => !jsWs y) h2
            refine ⟨by simpa using hxw, List.mem_cons_of_mem c ?_⟩
            exact (List.takeWhile_prefix _).subset h2
        · obtain ⟨h2, h3⟩ := ih rest.length hrl
            (rest.dropWhile (fun x => !jsWs x)) (dropWhile_length_le _ rest) w h1
          refine ⟨h2, fun x hx => ⟨(h3 x hx).1, List.mem_cons_of_mem c ?_⟩⟩
          exact (List.dropWhile_sublist _).subset (h3 x hx).2

theorem mem_joinWords :
    ∀ {ws : List (List Char)} {x : Char}, x ∈ joinWords ws →
      x = ' ' ∨ ∃ w ∈ ws, x ∈ w := by
  intro ws
  induction ws with
  | nil => intro x h; cases h
  | cons w rest ih =>
    intro x h
    cases rest with
    | nil => exact Or.inr ⟨w, by simp, h⟩
    | cons w2 rest2 =>
      rcases List.mem_append.mp h with h1 | h1
      · exact Or.inr ⟨w, by simp, h1⟩
      · rcases List.mem_cons.mp h1 with h2 | h2
        · exact Or.inl h2
        · rcases ih h2 with h3 | ⟨w', hw', hx'⟩
          · exact Or.inl h3
          · exact Or.inr ⟨w', List.mem_cons_of_mem w hw', hx'⟩

theorem joinWords_ne_nil {w : List Char} {ws : List (List Char)} (h : w ≠ []) :
    joinWords (w :: ws) ≠ [] := by
  cases ws with
  | nil => exact h
  | cons w2 rest =>
    show w ++ ' ' :: joinWords (w2 :: rest) ≠ []
    simp

theorem joinWords_head? {w : List Char} (ws : List (List Char)) (h : w ≠ []) :
    (joinWords (w :: ws)).head? = w.head? := by
  cases ws with
  | nil => rfl
  | cons w2 rest =>
    show (w ++ ' ' :: joinWords (w2 :: rest)).head? = w.head?
    cases w with
    | nil => exact absurd rfl h
    | cons c w' => rfl

theorem getLast?_isSome_of_ne_nil {l : List α} (h : l ≠ []) :
    ∃ y, l.getLast? = some y := by
  rcases List.eq_nil_or_concat l with h1 | ⟨l', a, h1⟩
  · exact absurd h1 h
  · refine ⟨a, ?_⟩
    rw [h1, List.concat_eq_append]
    exact List.getLast?_concat l'

theorem joinWords_getLast?_mem :
    ∀ (ws : List (List Char)), (∀ w ∈ ws, w ≠ []) →
      ∀ x, (joinWords ws).getLast? = some x → ∃ w ∈ ws, w.getLast? = some x := by
  intro ws
  induction ws with
  | nil => intro _ x h; cases h
  | cons w rest ih =>
    intro hall x h
    cases rest with
    | nil => exact ⟨w, by simp, h⟩
    | cons w2 rest2 =>
      have hjw : joinWords (w2 :: rest2) ≠ [] :=
        joinWords_ne_nil (hall w2 (by simp))
      obtain ⟨y, hy⟩ := getLast?_isSome_of_ne_nil hjw
      have hlast : (w ++ ' ' :: joinWords (w2 :: rest2)).getLast? = some y := by
        rw [List.getLast?_append]
        rw [show (' ' :: joinWords (w2 :: rest2)) = [' '] ++ joinWords (w2 :: rest2)
          from rfl, List.getLast?_append, hy]
        rfl
      have hxy : y = x := by
        have h2 : (joinWords (w :: w2 :: rest2)).getLast? = some y := hlast
        rw [h] at h2
        exact (Option.some_inj.mp h2).symm
      subst hxy
      obtain ⟨w', hw', hlast'⟩ :=
        ih (fun v hv => hall v (List.mem_cons_of_mem w hv)) y hy
      exact ⟨w', List.mem_cons_of_mem w hw', hlast'⟩

theorem jsTrim_eq_self {l : List Char}
    (h1 : ∀ c, l.head? = some c → jsWs c = false)
    (h2 : ∀ c, l.getLast? = some c → jsWs c = false) : jsTrim l = l := by
  unfold jsTrim
  have hd1 : l.dropWhile jsWs = l := by
    cases l with
    | nil => rfl
    | cons c rest =>
      rw [List.dropWhile_cons, h1 c rfl]
      simp
  rw [hd1]
  have hd2 : l.reverse.dropWhile jsWs = l.reverse := by
    cases hr : l.reverse with
    | nil => rfl
    | cons c rest =>
      have hc : l.getLast? = some c := by
        rw [← List.head?_reverse, hr]; rfl
      rw [List.dropWhile_cons, h2 c hc]
      simp
  rw [hd2, List.reverse_reverse]

theorem jsTrim_subset (z : List Char) : jsTrim z ⊆ z := by
  unfold jsTrim
  intro x hx
  rw [List.mem_reverse] at hx
  have hx2 := (List.dropWhile_sublist jsWs (l := (z.dropWhile jsWs).reverse)).subset hx
  rw [List.mem_reverse] at hx2
  exact (List.dropWhile_sublist jsWs (l := z)).subset hx2

theorem mem_cleanup {x : Char} {l : List Char} (h : x ∈ cleanup l) :
    x = ' ' ∨ x ∈ l.map replDelim := by
  unfold cleanup at h
  have h1 := jsTrim_subset _ h
  rcases mem_joinWords h1 with h2 | ⟨w, hw, hx⟩
  · exact Or.inl h2
  · obtain ⟨_, hchars⟩ := wsSplit_good (l.map replDelim).length
      (l.map replDelim) (Nat.le_refl _) w hw
    exact Or.inr (hchars x hx).2

theorem replDelim_idem (c : Char) : replDelim (replDelim c) = replDelim c := by
  unfold replDelim
  split
  · simp
  · rfl

theorem map_eq_self_of_forall {f : α → α} :
    ∀ {l : List α}, (∀ x ∈ l, f x = x) → l.map f = l := by
  intro l
  induction l with
  | nil => intro _; rfl
  | cons c rest ih =>
    intro h
    rw [List.map_cons, h c (by simp), ih (fun x hx => h x (by simp [hx]))]

theorem wsSplit_joinWords_good :
    ∀ ws : List (List Char), (∀ w ∈ ws, w ≠ [] ∧ ∀ c ∈ w, jsWs c = false) →
      wsSplit (joinWords ws) = ws := by
  intro ws
  induction ws with
  | nil => intro _; rfl
  | cons w rest ih =>
    intro hall
    obtain ⟨hne, hchars⟩ := hall w (by simp)
    cases rest with
    | nil =>
      show wsSplit w = [w]
      cases w with
      | nil => exact absurd rfl hne
      | cons c w' =>
        rw [wsSplit_cons_nws w' (hchars c (by simp))]
        rw [takeWhile_eq_self_of_all (fun x hx => by
          simp [hchars x (by simp [hx])])]
        rw [dropWhile_eq_nil_of_all (fun x hx => by
          simp [hchars x (by simp [hx])])]
        rfl
    | cons w2 rest2 =>
      show wsSplit (w ++ ' ' :: joinWords (w2 :: rest2)) = _
      cases w with
      | nil => exact absurd rfl hne
      | cons c w' =>
        rw [List.cons_append, wsSplit_cons_nws _ (hchars c (by simp))]
        rw [takeWhile_append_of_all (fun x hx => by
          simp [hchars x (by simp [hx])])]
        rw [dropWhile_append_of_all (fun x hx => by
          simp [hchars x (by simp [hx])])]
        rw [show (' ' :: joinWords (w2 :: rest2)).takeWhile (fun x => !jsWs x) = []
          from by rw [List.takeWhile_cons]; simp [jsWs]]
        rw [show (' ' :: joinWords (w2 :: rest2)).dropWhile (fun x => !jsWs x) =
          ' ' :: joinWords (w2 :: rest2) from by rw [List.dropWhile_cons]; simp [jsWs]]
        rw [wsSplit_cons_ws _ (by simp [jsWs])]
        rw [ih (fun v hv => hall v (List.mem_cons_of_mem _ hv))]
        simp

theorem cleanup_idem (l : List Char) : cleanup (cleanup l) = cleanup l := by
  have hgood : ∀ w ∈ wsSplit (l.map replDelim),
      w ≠ [] ∧ ∀ c ∈ w, jsWs c = false := by
    intro w hw
    obtain ⟨h1, h2⟩ := wsSplit_good (l.map replDelim).length
      (l.map replDelim) (Nat.le_refl _) w hw
    exact ⟨h1, fun c hc => (h2 c hc).1⟩
  have hjtrim : jsTrim (joinWords (wsSplit (l.map replDelim))) =
      joinWords (wsSplit (l.map replDelim)) := by
    cases hws : wsSplit (l.map replDelim) with
    | nil => rfl
    | cons w rest =>
      have hwne : w ≠ [] := (hgood w (by rw [hws]; simp)).1
      refine jsTrim_eq_self ?_ ?_
      · intro c hc
        rw [joinWords_head? rest hwne] at hc
        exact ((hgood w (by rw [hws]; simp)).2 c (mem_of_head? hc))
      · intro c hc
        obtain ⟨w', hw', hlast⟩ := joinWords_getLast?_mem (w :: rest)
          (fun v hv => (hgood v (by rw [hws]; exact hv)).1) c hc
        exact (hgood w' (by rw [hws]; exact hw')).2 c
          (List.mem_of_getLast?_eq_some hlast)
  have hco : cleanup l = joinWords (wsSplit (l.map replDelim)) := by
    unfold cleanup
    exact hjtrim
  have hmap : (cleanup l).map replDelim = cleanup l := by
    refine map_eq_self_of_forall ?_
    intro x hx
    rcases mem_cleanup hx with h1 | h1
    · rw [h1]; rfl
    · obtain ⟨c0, _, hc0⟩ := List.mem_map.mp h1
      rw [← hc0]
      exact replDelim_idem c0
  show jsTrim (joinWords (wsSplit ((cleanup l).map replDelim))) = cleanup l
  rw [hmap, hco, wsSplit_joinWords_good _ hgood, ← hco, hco]
  exact hjtrim

theorem takeWhile_digit_nil {l x : List Char}
    (hd : ∀ c ∈ l, c.isDigit = false) (hx : x ⊆ l) :
    x.takeWhile Char.isDigit = [] := by
  cases x with
  | nil => rfl
  | cons c xs =>
    rw [List.takeWhile_cons, hd c (hx (List.mem_cons_self c xs))]
    simp

theorem tryEpisodeV_none {l : List Char} (hd : ∀ c ∈ l, c.isDigit = false)
    (b : Bool) : tryEpisodeV b l = none := by
  cases l with
  | nil => rfl
  | cons d rest =>
    unfold tryEpisodeV
    dsimp only
    split
    · refine firstSome_none ?_
      intro m _
      have hsub : ((rest.drop m).drop
          (((rest.drop m).takeWhile jsWs).length)) ⊆ d :: rest :=
        fun x hx => List.mem_cons_of_mem d
          (List.drop_subset _ _ (List.drop_subset _ _ hx))
      rw [takeWhile_digit_nil hd hsub]
      simp
    · rfl

theorem tryEpisodeRange_none {l : List Char} (hd : ∀ c ∈ l, c.isDigit = false)
    (b : Bool) : tryEpisodeRange b l = none := by
  cases l with
  | nil => rfl
  | cons d rest =>
    unfold tryEpisodeRange
    dsimp only
    split
    · refine firstSome_none ?_
      intro m _
      have hsub : ((rest.drop m).drop
          (((rest.drop m).takeWhile jsWs).length)) ⊆ d :: rest :=
        fun x hx => List.mem_cons_of_mem d
          (List.drop_subset _ _ (List.drop_subset _ _ hx))
      rw [takeWhile_digit_nil hd hsub]
      simp
    · rfl

theorem tryEpisodeSingle_none {l : List Char} (hd : ∀ c ∈ l, c.isDigit = false)
    (b : Bool) : tryEpisodeSingle b l = none := by
  cases l with
  | nil => rfl
  | cons d rest =>
    unfold tryEpisodeSingle
    dsimp only
    split
    · refine firstSome_none ?_
      intro m _
      have hsub : ((rest.drop m).drop
          (((rest.drop m).takeWhile jsWs).length)) ⊆ d :: rest :=
        fun x hx => List.mem_cons_of_mem d
          (List.drop_subset _ _ (List.drop_subset _ _ hx))
      rw [takeWhile_digit_nil hd hsub]
      simp
    · rfl

theorem trySeasonBody_none {l : List Char} (hd : ∀ c ∈ l, c.isDigit = false) :
    trySeasonBody l = none := by
  cases l with
  | nil => rfl
  | cons c rest =>
    unfold trySeasonBody
    dsimp only
    split
    · rw [takeWhile_digit_nil hd (List.subset_cons_self c rest)]
      rfl
    · rfl

theorem trySeason_none {l : List Char} (hd : ∀ c ∈ l, c.isDigit = false)
    (st : Bool) : trySeason st l = none := by
  unfold trySeason
  rw [show (if st then trySeasonBody l else none) = none from by
    split
    · exact trySeasonBody_none hd
    · rfl]
  cases l with
  | nil => rfl
  | cons c rest =>
    dsimp only
    split
    · rw [trySeasonBody_none (fun x hx => hd x (List.mem_cons_of_mem c hx))]
      rfl
    · rfl

theorem tryYear_none {l : List Char} (hd : ∀ c ∈ l, c.isDigit = false)
    (b : Bool) : tryYear b l = none := by
  unfold tryYear
  split
  · rename_i a c2 c3 c4 tl
    rw [hd a (by simp)]
    rfl
  · rfl

theorem scanReplaceFirst_id {α : Type} (f : Bool → List Char → Option (Nat × α))
    (P : List Char → Prop)
    (hP : ∀ c rest, P (c :: rest) → P rest)
    (hf : ∀ st l, P l → f st l = none) :
    ∀ st (l : List Char), P l → scanReplaceFirst f st l = l := by
  intro st l
  induction l generalizing st with
  | nil =>
    intro h
    unfold scanReplaceFirst
    rw [hf st [] h]
  | cons c rest ih =>
    intro h
    unfold scanReplaceFirst
    rw [hf st _ h]
    dsimp only
    rw [ih false (hP c rest h)]

theorem dfree_tail {c : Char} {rest : List Char}
    (h : ∀ x ∈ c :: rest, x.isDigit = false) : ∀ x ∈ rest, x.isDigit = false :=
  fun x hx => h x (List.mem_cons_of_mem c hx)

theorem removeMatches_id {t : List Char} (hd : ∀ c ∈ t, c.isDigit = false) :
    removeMatches t = t := by
  unfold removeMatches
  rw [scanReplaceFirst_id tryEpisodeV (fun l => ∀ c ∈ l, c.isDigit = false)
      (fun _ _ => dfree_tail) (fun st l h => tryEpisodeV_none h st) true t hd,
    scanReplaceFirst_id tryEpisodeRange (fun l => ∀ c ∈ l, c.isDigit = false)
      (fun _ _ => dfree_tail) (fun st l h => tryEpisodeRange_none h st) true t hd,
    scanReplaceFirst_id tryEpisodeSingle (fun l => ∀ c ∈ l, c.isDigit = false)
      (fun _ _ => dfree_tail) (fun st l h => tryEpisodeSingle_none h st) true t hd,
    scanReplaceFirst_id trySeason (fun l => ∀ c ∈ l, c.isDigit = false)
      (fun _ _ => dfree_tail) (fun st l h => trySeason_none h st) true t hd,
    scanReplaceFirst_id tryYear (fun l => ∀ c ∈ l, c.isDigit = false)
      (fun _ _ => dfree_tail) (fun st l h => tryYear_none h st) true t hd]

theorem removeBrackets_id_of_DelimOk {t : List Char} (h : DelimOk '[' ']' t) :
    removeBrackets t = t :=
  removeDelim_id_of_DelimOk '[' ']' (by decide) t.length t (Nat.le_refl _) h

theorem removeParens_id_of_DelimOk {t : List Char} (h : DelimOk '(' ')' t) :
    removeParens t = t :=
  removeDelim_id_of_DelimOk '(' ')' (by decide) t.length t (Nat.le_refl _) h

theorem extractExtension_none_of_no_dot {t : List Char} (h : '.' ∉ t) :
    extractExtension t = none := by
  unfold extractExtension
  rw [breakAtChar_none_of_not_mem (by simpa using h)]

theorem extractGroup_none_of_DelimOk {t : List Char}
    (h : DelimOk '[' ']' t) : extractGroup t = none := by
  cases t with
  | nil => rfl
  | cons c rest =>
    unfold extractGroup
    split
    · rename_i rest2 heq
      have hc : c = '[' := (List.cons.injEq .. ▸ heq :
        c = '[' ∧ rest = rest2).1
      have hrest : rest = rest2 := (List.cons.injEq .. ▸ heq :
        c = '[' ∧ rest = rest2).2
      subst hc
      subst hrest
      have hnomem : ']' ∉ rest := by
        intro hmem
        unfold DelimOk projPair at h
        rw [List.filter_cons, if_pos (by simp)] at h
        exact (List.pairwise_cons.mp h).1 ']'
          (List.mem_filter.mpr ⟨hmem, by simp⟩) ⟨rfl, rfl⟩
      rw [breakAtChar_none_of_not_mem hnomem]
    · rfl

theorem replDelim_ne_dot (c : Char) : ¬ replDelim c = '.' := by
  unfold replDelim
  split
  · intro h; cases h
  · rename_i h
    intro h2
    exact h (by rw [h2]; simp)

/-- Structural facts about every title `extractTitle` produces: it is
nonempty, a fixed point of `cleanup`, no `[` in it precedes a `]`, no `(`
precedes a `)`, and it contains no dot. -/
theorem title_shape {input : List Char} {g e : Option (List Char)} {t : List Char}
    (h : extractTitle input g e = some t) :
    t ≠ [] ∧ cleanup t = t ∧ DelimOk '[' ']' t ∧ DelimOk '(' ')' t ∧ '.' ∉ t := by
  unfold extractTitle titleOf at h
  split at h
  · cases h
  · rename_i hcond
    simp only [Option.some_inj] at h
    subst h
    constructor
    · intro h0
      rw [h0] at hcond
      exact hcond rfl
    refine ⟨cleanup_idem _, ?_, ?_, ?_⟩
    · have h1 : DelimOk '[' ']'
          (removeBrackets (removeMatches (stripExtension e (stripGroupTag g input)))) :=
        DelimOk_removeDelim '[' ']' (by decide) (by decide) (by decide) _ _ (Nat.le_refl _)
      have h2 := projPair_removeDelim_sublist '[' ']' '(' ')' (by decide) (by decide)
        (removeBrackets (removeMatches (stripExtension e (stripGroupTag g input)))).length
        (removeBrackets (removeMatches (stripExtension e (stripGroupTag g input))))
        (Nat.le_refl _)
      have h3 : DelimOk '[' ']'
          (removeParens (removeBrackets
            (removeMatches (stripExtension e (stripGroupTag g input))))) :=
        List.Pairwise.sublist h2 h1
      unfold DelimOk
      rw [projPair_cleanup '[' ']' (by decide) (by decide) (by decide) (by decide)
        (by decide) (by decide)]
      exact h3
    · have h1 : DelimOk '(' ')'
          (removeParens (removeBrackets
            (removeMatches (stripExtension e (stripGroupTag g input))))) :=
        DelimOk_removeDelim '(' ')' (by decide) (by decide) (by decide) _ _ (Nat.le_refl _)
      unfold DelimOk
      rw [projPair_cleanup '(' ')' (by decide) (by decide) (by decide) (by decide)
        (by decide) (by decide)]
      exact h1
    · intro hdot
      rcases mem_cleanup hdot with h1 | h1
      · cases h1
      · obtain ⟨c0, _, hc0⟩ := List.mem_map.mp h1
        exact replDelim_ne_dot c0 hc0

/-- A nonempty, cleaned, digit-free string with no bracket or paren pair and
no dot is a fixed point of the whole normalization pass. -/
theorem normalizeTitle_fixed (t : List Char)
    (hne : t ≠ []) (hfix : cleanup t = t)
    (hbr : DelimOk '[' ']' t) (hpr : DelimOk '(' ')' t) (hdot : '.' ∉ t)
    (hd : ∀ c ∈ t, c.isDigit = false) :
    normalizeTitle t = some t := by
  have hg : extractGroup t = none := extractGroup_none_of_DelimOk hbr
  have he : extractExtension t = none := extractExtension_none_of_no_dot hdot
  show extractTitle t (extractGroup t) (extractExtension t) = some t
  rw [hg, he]
  show titleOf (cleanup (removeParens (removeBrackets (removeMatches
    (stripExtension none (stripGroupTag none t)))))) = some t
  have hsg : stripGroupTag none t = t := rfl
  have hse : stripExtension none t = t := rfl
  rw [hsg, hse, removeMatches_id hd, removeBrackets_id_of_DelimOk hbr,
    removeParens_id_of_DelimOk hpr, hfix]
  unfold titleOf
  rw [if_neg (by simpa using hne)]

/-- The confidence formula as the claim words it (refinement comparison):
"each present field among {group, episode, resolution, video_codec,
audio_codec, source} adds 1, a present title adds 2, denominator 8 when
title is present and 7 otherwise, capped at 1" — with "present" read as
"not none". -/
def specConfidence (r : ParseResult) : ℚ :=
  let den : ℚ := if r.title.isSome then 8 else 7
  let num : ℚ :=
    (if r.title.isSome then 2 else 0) +
    (if r.group.isSome then 1 else 0) +
    (if r.episode.isSome then 1 else 0) +
    (if r.resolution.isSome then 1 else 0) +
    (if r.video_codec.isSome then 1 else 0) +
    (if r.audio_codec.isSome then 1 else 0) +
    (if r.source.isSome then 1 else 0)
  jsMin (num / den) 1

/-- The amended confidence formula: as `specConfidence`, except that a group
extracted as the empty string (a whitespace-only bracet interior) counts as
absent, matching the JavaScript truthiness test in the code (a bracket
group whose trimmed interior is empty is the one way the two differ). -/
def specConfidenceAmended (r : ParseResult) : ℚ :=
  let den : ℚ := if r.title.isSome then 8 else 7
  let num : ℚ :=
    (if r.title.isSome then 2 else 0) +
    (if truthyL r.group then 1 else 0) +
    (if r.episode.isSome then 1 else 0) +
    (if r.resolution.isSome then 1 else 0) +
    (if r.video_codec.isSome then 1 else 0) +
    (if r.audio_codec.isSome then 1 else 0) +
    (if r.source.isSome then 1 else 0)
  jsMin (num / den) 1

/-! ## Claim theorems -/

set_option maxRecDepth 40000

/-- C2: `parse` fails with `EmptyInput` exactly when the trimmed input has
zero length (so `parse ""` and `parse "   "` both fail), and every input
whose trimmed form is nonempty yields a completed `ParseResult` with no
error. -/
theorem parse_emptyInput_iff_trimmed_empty :
    ∀ s : String,
      (parse s = .error .emptyInput ↔ (jsTrim s.data).length = 0) ∧
      ((jsTrim s.data).length ≠ 0 → parse s = .ok (parseCore (jsTrim s.data))) := by
  intro s
  unfold parse
  cases ht : jsTrim s.data with
  | nil => simp
  | cons c rest => simp

/-- Closed witness for C2: the two empty-style inputs fail and a nonempty
input succeeds, all by the theorem itself. -/
theorem parse_emptyInput_iff_trimmed_empty_witness :
    parse "" = .error .emptyInput ∧ parse "   " = .error .emptyInput ∧
      parse " a " = .ok (parseCore (jsTrim " a ".data)) :=
  ⟨(parse_emptyInput_iff_trimmed_empty "").1.mpr (by decide),
   (parse_emptyInput_iff_trimmed_empty "   ").1.mpr (by decide),
   (parse_emptyInput_iff_trimmed_empty " a ").2 (by decide)⟩

/-- C1 (code bug): on the spec's own example
`"One.Piece.1084.VOSTFR.1080p.WEB.x264-AAC.mkv"` the reference JavaScript
parser leaves `video_codec`, `audio_codec` and `source` all `null` — it has
no codec/source alias extraction at all — while episode and resolution do
come out as documented.  This contradicts the repository's own test suite,
which expects `video_codec = H264` and `audio_codec = AAC` here. -/
theorem parse_onePiece_has_no_codec_fields :
    (parse "One.Piece.1084.VOSTFR.1080p.WEB.x264-AAC.mkv").map (fun r => r.video_codec) =
        .ok none ∧
    (parse "One.Piece.1084.VOSTFR.1080p.WEB.x264-AAC.mkv").map (fun r => r.audio_codec) =
        .ok none ∧
    (parse "One.Piece.1084.VOSTFR.1080p.WEB.x264-AAC.mkv").map (fun r => r.source) =
        .ok none ∧
    (parse "One.Piece.1084.VOSTFR.1080p.WEB.x264-AAC.mkv").map (fun r => r.episode) =
        .ok (some (.single 1084)) ∧
    (parse "One.Piece.1084.VOSTFR.1080p.WEB.x264-AAC.mkv").map (fun r => r.resolution) =
        .ok (some .FHD1080) :=
  ⟨by decide, by decide, by decide, by decide, by decide⟩

/-- C3: the episode resolver consults the three attempts in the fixed order
versioned → range → single, stops at the first success (an invalid range
pair does not count as success), and yields `none` when the single attempt
also fails — with no further retry.  The first conjunct ties the resolver to
the `parse` pipeline. -/
theorem episode_resolver_priority :
    (∀ s r, parse s = .ok r → r.episode = extractEpisode (jsTrim s.data)) ∧
    ∀ l : List Char,
      (∀ e v, execEpisodeV l = some (e, v) →
        extractEpisode l = some (.versioned e v)) ∧
      (execEpisodeV l = none →
        ∀ a b, execEpisodeRange l = some (a, b) → a < b →
          extractEpisode l = some (.range a b)) ∧
      (execEpisodeV l = none →
        (execEpisodeRange l = none ∨
          ∃ a b, execEpisodeRange l = some (a, b) ∧ ¬ a < b) →
        extractEpisode l = (execEpisodeSingle l).map EpisodeSpec.single) := by
  constructor
  · intro s r hr
    unfold parse at hr
    split at hr
    · cases hr
    · cases hr; rfl
  · intro l
    refine ⟨?_, ?_, ?_⟩
    · intro e v hv
      unfold extractEpisode
      simp only [hv]
    · intro hv a b hab hlt
      unfold extractEpisode
      simp only [hv, hab, if_pos hlt]
    · intro hv hrange
      unfold extractEpisode
      simp only [hv]
      rcases hrange with h | ⟨a, b, hab, hnlt⟩
      · simp only [h]
        cases hs : execEpisodeSingle l <;> simp
      · simp only [hab, if_neg hnlt]
        cases hs : execEpisodeSingle l <;> simp

/-- Closed witness for C3: each attempt outcome exercised on a concrete
input through the theorem itself. -/
theorem episode_resolver_priority_witness :
    extractEpisode "a - 28v2".data = some (.versioned 28 2) ∧
    extractEpisode "a 01-12".data = some (.range 1 12) ∧
    extractEpisode "a 05-03 b".data = (execEpisodeSingle "a 05-03 b".data).map EpisodeSpec.single ∧
    extractEpisode "xyz".data = (execEpisodeSingle "xyz".data).map EpisodeSpec.single :=
  ⟨(episode_resolver_priority.2 _).1 28 2 (by decide),
   (episode_resolver_priority.2 _).2.1 (by decide) 1 12 (by decide) (by decide),
   (episode_resolver_priority.2 _).2.2 (by decide)
     (Or.inr ⟨5, 3, by decide, by decide⟩),
   (episode_resolver_priority.2 _).2.2 (by decide) (Or.inl (by decide))⟩

/-- C10: the parser never produces the `multi` variant of `EpisodeSpec`,
even though it is a declared first-class variant of the public type. -/
theorem episode_never_multi :
    ∀ s r, parse s = .ok r → ∀ eps, r.episode ≠ some (.multi eps) := by
  intro s r hr eps
  have he : r.episode = extractEpisode (jsTrim s.data) :=
    episode_resolver_priority.1 s r hr
  rw [he]
  unfold extractEpisode
  cases hv : execEpisodeV (jsTrim s.data) with
  | some p => simp
  | none =>
    cases hr2 : execEpisodeRange (jsTrim s.data) with
    | some p =>
      dsimp only
      split
      · simp
      · cases hs : execEpisodeSingle (jsTrim s.data) <;> simp
    | none =>
      cases hs : execEpisodeSingle (jsTrim s.data) <;> simp

/-- Closed witness for C10 at a concrete input, via the theorem itself. -/
theorem episode_never_multi_witness :
    (parseCore (jsTrim "a 01.mkv".data)).episode ≠ some (.multi [1]) :=
  episode_never_multi "a 01.mkv" _ rfl [1]

/-- C4 (counterexample): the claim as stated is false — a versioned episode
spec with `version = 0` is reachable (`"28v0"`), violating the claimed
invariant `version ≥ 1`. -/
theorem episode_invariants_counterexample :
    ¬ (∀ s r, parse s = .ok r →
        ∀ e v, r.episode = some (.versioned e v) → 1 ≤ v) := by
  intro h
  have := h "a - 28v0.mkv" (parseCore (jsTrim "a - 28v0.mkv".data)) rfl 28 0 (by decide)
  omega

/-- C4 (amended): every `EpisodeSpec` produced by `parse` satisfies the
variant invariants actually enforced by the code: a `range` has
`start < end` (an invalid pair is discarded and resolution falls through to
the single attempt), while `single` episodes and both `versioned`
components are merely nonnegative integers (`version = 0` is possible, via
a literal `v0` suffix). -/
theorem episode_invariants_amended :
    ∀ s r, parse s = .ok r →
      (∀ a b, r.episode = some (.range a b) → a < b) ∧
      (∀ e v, r.episode = some (.versioned e v) → 0 ≤ e ∧ 0 ≤ v) ∧
      (execEpisodeV (jsTrim s.data) = none →
        ∀ a b, execEpisodeRange (jsTrim s.data) = some (a, b) → ¬ a < b →
          r.episode = (execEpisodeSingle (jsTrim s.data)).map EpisodeSpec.single) := by
  intro s r hr
  have he : r.episode = extractEpisode (jsTrim s.data) :=
    episode_resolver_priority.1 s r hr
  refine ⟨?_, fun e v _ => ⟨Nat.zero_le _, Nat.zero_le _⟩, ?_⟩
  · intro a b hab
    rw [he] at hab
    unfold extractEpisode at hab
    cases hv : execEpisodeV (jsTrim s.data) with
    | some p => rw [hv] at hab; simp at hab
    | none =>
      rw [hv] at hab
      cases hr2 : execEpisodeRange (jsTrim s.data) with
      | some p =>
        rw [hr2] at hab
        dsimp only at hab
        split at hab
        · simp only [Option.some_inj] at hab
          cases hab
          assumption
        · cases hs : execEpisodeSingle (jsTrim s.data) <;>
            rw [hs] at hab <;> simp at hab
      | none =>
        rw [hr2] at hab
        cases hs : execEpisodeSingle (jsTrim s.data) <;>
          rw [hs] at hab <;> simp at hab
  · intro hv a b hab hnlt
    rw [he]
    exact (episode_resolver_priority.2 _).2.2 hv (Or.inr ⟨a, b, hab, hnlt⟩)

/-- Closed witness for C4 (amended), via the theorem itself: a produced
range satisfies `start < end`, and an invalid `05-03` pair falls through to
the single attempt. -/
theorem episode_invariants_amended_witness :
    (1 < 12 ∨ (parseCore (jsTrim "a 01-12".data)).episode ≠ some (.range 1 12)) ∧
    (parseCore (jsTrim "a 05-03 b".data)).episode =
      (execEpisodeSingle (jsTrim "a 05-03 b".data)).map EpisodeSpec.single := by
  constructor
  · by_cases h : (parseCore (jsTrim "a 01-12".data)).episode = some (.range 1 12)
    · exact Or.inl ((episode_invariants_amended "a 01-12" _ rfl).1 1 12 h)
    · exact Or.inr h
  · exact (episode_invariants_amended "a 05-03 b" _ rfl).2.2 (by decide) 5 3 (by decide)
      (by decide)

/-- C7 (counterexample): the resolution markers are not matched
case-insensitively — `"x 1080P"` contains the marker `1080p` up to case, but
`String.prototype.includes` is case sensitive, so the resolution field stays
`null`. -/
theorem resolution_case_insensitive_counterexample :
    ¬ (∀ s r, parse s = .ok r →
        listContains ((jsTrim s.data).map Char.toLower) "1080p".data = true →
        r.resolution = some .FHD1080) := by
  intro h
  have h1 := h "x 1080P" (parseCore (jsTrim "x 1080P".data)) rfl (by decide)
  have h2 : (parseCore (jsTrim "x 1080P".data)).resolution = none := by decide
  rw [h1] at h2
  cases h2

/-- C7 (amended): the resolution extractor checks the canonical markers by
case-sensitive substring containment in the fixed priority order
2160 → 1080 → 720 → 480, each marker accepting both `p` and `i` suffix
forms, with the first match winning; in particular every string containing
both `2160p` and `720p` resolves to `UHD2160`.  The first conjunct ties the
extractor to the `parse` pipeline. -/
theorem resolution_priority_amended :
    (∀ s r, parse s = .ok r → r.resolution = extractResolution (jsTrim s.data)) ∧
    ∀ l : List Char,
      ((listContains l "2160p".data || listContains l "2160i".data) = true →
        extractResolution l = some .UHD2160) ∧
      (listContains l "2160p".data = true → listContains l "720p".data = true →
        extractResolution l = some .UHD2160) ∧
      ((listContains l "2160p".data || listContains l "2160i".data) = false →
        (listContains l "1080p".data || listContains l "1080i".data) = true →
        extractResolution l = some .FHD1080) ∧
      ((listContains l "2160p".data || listContains l "2160i".data) = false →
        (listContains l "1080p".data || listContains l "1080i".data) = false →
        (listContains l "720p".data || listContains l "720i".data) = true →
        extractResolution l = some .HD720) ∧
      ((listContains l "2160p".data || listContains l "2160i".data) = false →
        (listContains l "1080p".data || listContains l "1080i".data) = false →
        (listContains l "720p".data || listContains l "720i".data) = false →
        (listContains l "480p".data || listContains l "480i".data) = true →
        extractResolution l = some .SD480) ∧
      ((listContains l "2160p".data || listContains l "2160i".data) = false →
        (listContains l "1080p".data || listContains l "1080i".data) = false →
        (listContains l "720p".data || listContains l "720i".data) = false →
        (listContains l "480p".data || listContains l "480i".data) = false →
        extractResolution l = none) := by
  refine ⟨?_, ?_⟩
  · intro s r hr
    unfold parse at hr
    split at hr
    · cases hr
    · cases hr; rfl
  · intro l
    unfold extractResolution
    refine ⟨?_, ?_, ?_, ?_, ?_, ?_⟩ <;> intros <;> simp_all

/-- C9 (counterexample): a season of `0` is reachable (`"S0 foo"`), because
`parseInt` of the captured digits of `S(\d+)` can be zero; the claimed
positivity (season ≥ 1) is false. -/
theorem season_positive_counterexample :
    ¬ (∀ s r, parse s = .ok r → ∀ n, r.season = some n → 1 ≤ n) := by
  intro h
  have := h "S0 foo" (parseCore (jsTrim "S0 foo".data)) rfl 0 (by decide)
  omega

theorem trySeasonBody_some {l : List Char} {c n : Nat}
    (h : trySeasonBody l = some (c, n)) :
    ∃ s0 ds rest, l = s0 :: ds ++ rest ∧ (s0 = 'S' ∨ s0 = 's') ∧ ds ≠ [] ∧
      (∀ d ∈ ds, d.isDigit = true) ∧
      (∀ d, rest.head? = some d → d.isDigit = false) ∧
      n = digitsToNat ds := by
  unfold trySeasonBody at h
  cases l with
  | nil => cases h
  | cons s0 rest0 =>
    dsimp only at h
    by_cases hs : (s0 = 'S' || s0 = 's') = true
    · rw [if_pos hs] at h
      by_cases he : (rest0.takeWhile Char.isDigit).isEmpty = true
      · rw [if_pos he] at h; cases h
      · rw [if_neg he] at h
        refine ⟨s0, rest0.takeWhile Char.isDigit, rest0.dropWhile Char.isDigit,
          by simp, by simpa using hs, ?_, ?_, ?_, ?_⟩
        · intro hnil; rw [hnil] at he; exact he rfl
        · intro d hd; exact List.mem_takeWhile_imp hd
        · intro d hd
          have hh := List.head?_dropWhile_not Char.isDigit rest0
          rw [hd] at hh
          exact hh
        · cases h; rfl
    · rw [if_neg hs] at h; cases h

theorem execScan_trySeason_decomp :
    ∀ (l : List Char) (st : Bool) (p : Nat × Nat),
      execScan trySeason st l = some p →
      ∃ pre suf, l = pre ++ suf ∧
        ((st = true ∧ pre = [] ∧ trySeasonBody suf = some p) ∨
         (∃ q suf2 c2, suf = q :: suf2 ∧ (jsWs q = true ∨ q = '-') ∧
            trySeasonBody suf2 = some (c2, p.2))) := by
  intro l
  induction l with
  | nil =>
    intro st p h
    simp [execScan, trySeason, trySeasonBody] at h
  | cons c rest ih =>
    intro st p h
    unfold execScan at h
    cases hf : trySeason st (c :: rest) with
    | some r =>
      rw [hf] at h
      simp only [Option.some_inj] at h
      subst h
      unfold trySeason at hf
      cases hb : (if st then trySeasonBody (c :: rest) else none) with
      | some r2 =>
        rw [hb] at hf
        simp only [Option.some_inj] at hf
        subst hf
        cases st with
        | false => simp at hb
        | true =>
          refine ⟨[], c :: rest, rfl, Or.inl ⟨rfl, rfl, ?_⟩⟩
          simpa using hb
      | none =>
        rw [hb] at hf
        dsimp only at hf
        by_cases hq : (jsWs c || c = '-') = true
        · rw [if_pos hq] at hf
          cases hbody : trySeasonBody rest with
          | none => rw [hbody] at hf; cases hf
          | some p2 =>
            rw [hbody] at hf
            simp only [Option.map] at hf
            cases hf
            exact ⟨[], c :: rest, rfl,
              Or.inr ⟨c, rest, p2.1, rfl, by simpa using hq, by simpa using hbody⟩⟩
        · rw [if_neg hq] at hf; cases hf
    | none =>
      rw [hf] at h
      obtain ⟨pre, suf, hsplit, hcase⟩ := ih false p h
      refine ⟨c :: pre, suf, by rw [hsplit]; rfl, ?_⟩
      rcases hcase with ⟨hst, _⟩ | h2
      · cases hst
      · exact Or.inr h2

/-- C9 (amended): a non-`none` season returned by `parse` is a nonnegative
integer extracted from an `S<digits>` token (`S` or `s`, then a maximal
nonempty digit run giving the value) whose left boundary is the start of the
trimmed input, a whitespace character, or a dash.  (The claimed positivity
is weakened to nonnegativity: `S0` yields season 0.) -/
theorem season_structure_amended :
    ∀ s r, parse s = .ok r → ∀ n, r.season = some n →
      0 ≤ n ∧
      ∃ pre mid ds rest, jsTrim s.data = pre ++ mid ++ ds ++ rest ∧
        (mid = ['S'] ∨ mid = ['s']) ∧ ds ≠ [] ∧ (∀ d ∈ ds, d.isDigit = true) ∧
        (∀ d, rest.head? = some d → d.isDigit = false) ∧ n = digitsToNat ds ∧
        (pre = [] ∨ ∃ p q, pre = p ++ [q] ∧ (jsWs q = true ∨ q = '-')) := by
  intro s r hr n hn
  refine ⟨Nat.zero_le _, ?_⟩
  have hseason : r.season = extractSeason (jsTrim s.data) := by
    unfold parse at hr
    split at hr
    · cases hr
    · cases hr; rfl
  rw [hseason] at hn
  unfold extractSeason at hn
  cases hscan : execScan trySeason true (jsTrim s.data) with
  | none => rw [hscan] at hn; cases hn
  | some p =>
    rw [hscan] at hn
    simp only [Option.map] at hn
    cases hn
    obtain ⟨pre, suf, hsplit, hcase⟩ := execScan_trySeason_decomp _ true p hscan
    rcases hcase with ⟨_, hpre, hbody⟩ | ⟨q, suf2, c2, hsuf, hq, hbody⟩
    · obtain ⟨s0, ds, rest, hsuf, hs0, hds, hdig, hrest, hval⟩ :=
        trySeasonBody_some hbody
      subst hpre
      refine ⟨[], [s0], ds, rest, ?_, ?_, hds, hdig, hrest, hval, Or.inl rfl⟩
      · rw [hsplit, hsuf]; rfl
      · rcases hs0 with h | h <;> rw [h] <;> simp
    · obtain ⟨s0, ds, rest, hsuf2, hs0, hds, hdig, hrest, hval⟩ :=
        trySeasonBody_some hbody
      refine ⟨pre ++ [q], [s0], ds, rest, ?_, ?_, hds, hdig, hrest, hval,
        Or.inr ⟨pre, q, rfl, hq⟩⟩
      · rw [hsplit, hsuf, hsuf2]; simp
      · rcases hs0 with h | h <;> rw [h] <;> simp

/-- Closed witness for C9 (amended), via the theorem itself at `"x S3 e"`. -/
theorem season_structure_amended_witness :
    0 ≤ 3 ∧
    ∃ pre mid ds rest, jsTrim "x S3 e".data = pre ++ mid ++ ds ++ rest ∧
      (mid = ['S'] ∨ mid = ['s']) ∧ ds ≠ [] ∧ (∀ d ∈ ds, d.isDigit = true) ∧
      (∀ d, rest.head? = some d → d.isDigit = false) ∧ 3 = digitsToNat ds ∧
      (pre = [] ∨ ∃ p q, pre = p ++ [q] ∧ (jsWs q = true ∨ q = '-')) :=
  season_structure_amended "x S3 e" (parseCore (jsTrim "x S3 e".data)) rfl 3 (by decide)

/-- C8: `parseBatch` applies `parse` to each element; when every element has
a nonempty trimmed form the results come back in input order, and otherwise
the first `EmptyInput` failure aborts the whole batch (elements after the
offending one are not reflected in any output). -/
theorem parseBatch_order_and_abort :
    ∀ inputs : List String,
      ((∀ s ∈ inputs, (jsTrim s.data).isEmpty = false) →
        parseBatch inputs = .ok (inputs.map (fun s => parseCore (jsTrim s.data)))) ∧
      (∀ pre bad rest, inputs = pre ++ bad :: rest →
        (jsTrim bad.data).isEmpty = true →
        (∀ s ∈ pre, (jsTrim s.data).isEmpty = false) →
        parseBatch inputs = .error .emptyInput) := by
  intro inputs
  constructor
  · induction inputs with
    | nil => intro _; rfl
    | cons s rest ih =>
      intro hall
      have hs : (jsTrim s.data).isEmpty = false := hall s (by simp)
      have hrest := ih (fun x hx => hall x (by simp [hx]))
      unfold parseBatch parse
      rw [if_neg (by simp [hs])]
      rw [show Zantetsu.parseBatch rest = _ from hrest]
      rfl
  · induction inputs with
    | nil =>
      intro pre bad rest h
      exact absurd h (by simp)
    | cons s tl ih =>
      intro pre bad rest hsplit hbad hpre
      cases pre with
      | nil =>
        simp only [List.nil_append, List.cons.injEq] at hsplit
        obtain ⟨rfl, rfl⟩ := hsplit
        unfold parseBatch parse
        rw [if_pos (by simp [hbad])]
      | cons p ps =>
        simp only [List.cons_append, List.cons.injEq] at hsplit
        obtain ⟨rfl, hsplit2⟩ := hsplit
        have hp : (jsTrim s.data).isEmpty = false := hpre s (by simp)
        have htl := ih ps bad rest hsplit2 hbad (fun x hx => hpre x (by simp [hx]))
        unfold parseBatch parse
        rw [if_neg (by simp [hp]), htl]

theorem titleOf_ne_some_nil : ∀ c, titleOf c ≠ some [] := by
  intro c h
  unfold titleOf at h
  split at h
  · cases h
  · rename_i hcond
    simp only [Option.some_inj] at h
    rw [h] at hcond
    simp at hcond

theorem extractTitle_ne_some_nil :
    ∀ (input : List Char) (g e : Option (List Char)),
      extractTitle input g e ≠ some [] := by
  intro input g e
  exact titleOf_ne_some_nil _

theorem ite_nonneg_q {c : Prop} [Decidable c] {x y : ℚ} (hx : 0 ≤ x) (hy : 0 ≤ y) :
    0 ≤ if c then x else y := by
  split <;> assumption

theorem jsMin_div_bounds (num den : ℚ) (hn : 0 ≤ num) (hd : 0 < den) :
    0 ≤ jsMin (num / den) 1 ∧ jsMin (num / den) 1 ≤ 1 := by
  unfold jsMin
  constructor
  · split
    · exact div_nonneg hn (le_of_lt hd)
    · norm_num
  · split
    · assumption
    · norm_num

theorem computeConfidence_spec (r : ParseResult)
    (h : truthyL r.title = r.title.isSome) :
    computeConfidence r = specConfidenceAmended r ∧
      0 ≤ computeConfidence r ∧ computeConfidence r ≤ 1 := by
  have hden : (7:ℚ) + (if r.title.isSome then 1 else 0) =
      if r.title.isSome then 8 else 7 := by
    split <;> norm_num
  have hnum : (0:ℚ) ≤
      (if r.title.isSome then 2 else 0) + (if truthyL r.group then 1 else 0) +
      (if r.episode.isSome then 1 else 0) + (if r.resolution.isSome then 1 else 0) +
      (if r.video_codec.isSome then 1 else 0) + (if r.audio_codec.isSome then 1 else 0) +
      (if r.source.isSome then 1 else 0) := by
    repeat' apply add_nonneg
    all_goals exact ite_nonneg_q (by norm_num) (by norm_num)
  have hdpos : (0:ℚ) < 7 + (if r.title.isSome then 1 else 0) := by
    split <;> norm_num
  refine ⟨?_, ?_, ?_⟩
  · simp only [computeConfidence, specConfidenceAmended]
    rw [h, hden]
  · simp only [computeConfidence]
    rw [h]
    exact (jsMin_div_bounds _ _ hnum hdpos).1
  · simp only [computeConfidence]
    rw [h]
    exact (jsMin_div_bounds _ _ hnum hdpos).2

/-- C6 (counterexample): the claimed formula with "present" read as
"not none" is refuted by `"[ ]a"`, whose group is extracted as the empty
string: the code's truthiness test does not count it, so the computed
confidence is `2/8` while the claimed formula gives `3/8`. -/
theorem confidence_formula_counterexample :
    ¬ (∀ s r, parse s = .ok r → r.confidence = specConfidence r) := by
  intro h
  have h1 := h "[ ]a" (parseCore (jsTrim "[ ]a".data)) rfl
  have e1 : (parseCore (jsTrim "[ ]a".data)).title = some ['a'] := by decide
  have e2 : (parseCore (jsTrim "[ ]a".data)).group = some [] := by decide
  have e3 : (parseCore (jsTrim "[ ]a".data)).episode = none := by decide
  have e4 : (parseCore (jsTrim "[ ]a".data)).resolution = none := by decide
  have e5 : (parseCore (jsTrim "[ ]a".data)).video_codec = none := by decide
  have e6 : (parseCore (jsTrim "[ ]a".data)).audio_codec = none := by decide
  have e7 : (parseCore (jsTrim "[ ]a".data)).source = none := by decide
  have hc : (parseCore (jsTrim "[ ]a".data)).confidence =
      computeConfidence (parseCore (jsTrim "[ ]a".data)) := rfl
  rw [hc] at h1
  simp only [computeConfidence, specConfidence] at h1
  rw [e1, e2, e3, e4, e5, e6, e7] at h1
  norm_num [truthyL, jsMin] at h1

/-- C6 (amended): for every record `parse` returns, the confidence equals
the weighted-presence formula — each present field among {group, episode,
resolution, video_codec, audio_codec, source} adds 1, a present title adds
2, the denominator is 8 when a title is present and 7 otherwise, capped at
1 — except that a group extracted as the empty string counts as absent; and
the confidence always lies in [0, 1]. -/
theorem confidence_formula_amended :
    ∀ s r, parse s = .ok r →
      r.confidence = specConfidenceAmended r ∧
        0 ≤ r.confidence ∧ r.confidence ≤ 1 := by
  intro s r hr
  unfold parse at hr
  split at hr
  · cases hr
  · cases hr
    have htitle : truthyL (baseResult (jsTrim s.data)).title =
        (baseResult (jsTrim s.data)).title.isSome := by
      rw [baseResult_title]
      cases hT : normalizeTitle (jsTrim s.data) with
      | none => rfl
      | some tl =>
        cases tl with
        | nil =>
          have : extractTitle (jsTrim s.data) (extractGroup (jsTrim s.data))
              (extractExtension (jsTrim s.data)) = some [] := by
            rw [← hT]; rfl
          exact absurd this (extractTitle_ne_some_nil _ _ _)
        | cons a as => simp [truthyL]
    have key := computeConfidence_spec (baseResult (jsTrim s.data)) htitle
    have hspec : specConfidenceAmended (parseCore (jsTrim s.data)) =
        specConfidenceAmended (baseResult (jsTrim s.data)) := by
      simp only [specConfidenceAmended, parseCore_title, parseCore_group,
        parseCore_episode, parseCore_resolution, baseResult_title, baseResult_group,
        baseResult_episode, baseResult_resolution, (parseCore_codecs _).1,
        (parseCore_codecs _).2.1, (parseCore_codecs _).2.2, (baseResult_codecs _).1,
        (baseResult_codecs _).2.1, (baseResult_codecs _).2.2]
    rw [parseCore_confidence, hspec]
    exact key

/-- C5 (counterexample): the title-normalization pass is not idempotent.
`"Show 01 Part 02.mkv"` parses to the title `"Show Part 02"` (only the first
match of the single-episode pattern is replaced, so the second episode-like
token survives), and normalizing that title again strips the surviving
`" 02"`, giving `"Show Part"`. -/
theorem title_idempotence_counterexample :
    ¬ (∀ s r t, parse s = .ok r → r.title = some t → normalizeTitle t = some t) := by
  intro h
  have h1 := h "Show 01 Part 02.mkv" (parseCore (jsTrim "Show 01 Part 02.mkv".data))
    "Show Part 02".data rfl (by decide)
  have h2 : normalizeTitle "Show Part 02".data = some "Show Part".data := by decide
  rw [h1] at h2
  exact absurd h2 (by decide)

/-- C5 (amended): the title-normalization pass is idempotent on every
parse-produced title that contains no decimal digit: feeding such a title
back through the normalizer returns it unchanged.  (Unrestricted idempotence
fails: a digit token surviving the single first-match episode replacement is
stripped by a second pass.) -/
theorem title_idempotent_amended :
    ∀ s r t, parse s = .ok r → r.title = some t →
      (∀ c ∈ t, c.isDigit = false) → normalizeTitle t = some t := by
  intro s r t hr ht hd
  have h0 : extractTitle (jsTrim s.data) (extractGroup (jsTrim s.data))
      (extractExtension (jsTrim s.data)) = some t := by
    unfold parse at hr
    split at hr
    · cases hr
    · cases hr
      rw [parseCore_title] at ht
      unfold normalizeTitle at ht
      exact ht
  obtain ⟨hne, hfix, hbr, hpr, hdot⟩ := title_shape h0
  exact normalizeTitle_fixed t hne hfix hbr hpr hdot hd

/-- Closed witness for C5 (amended), via the theorem itself: the digit-free
title produced for `"ab cd.mkv"` is a fixed point of the normalizer. -/
theorem title_idempotent_amended_witness :
    normalizeTitle "ab cd".data = some "ab cd".data :=
  title_idempotent_amended "ab cd.mkv" (parseCore (jsTrim "ab cd.mkv".data))
    "ab cd".data rfl (by decide) (by decide)

/-- Closed witness for C6 (amended), via the theorem itself. -/
theorem confidence_formula_amended_witness :
    (parseCore (jsTrim "a 01".data)).confidence =
        specConfidenceAmended (parseCore (jsTrim "a 01".data)) ∧
      0 ≤ (parseCore (jsTrim "a 01".data)).confidence ∧
      (parseCore (jsTrim "a 01".data)).confidence ≤ 1 :=
  confidence_formula_amended "a 01" (parseCore (jsTrim "a 01".data)) rfl

/-- Closed witness for C8, via the theorem itself: a clean two-element batch
returns both results in order, and a batch whose second element is blank
aborts with `EmptyInput`. -/
theorem parseBatch_order_and_abort_witness :
    parseBatch ["a 01", "b 02"] =
      .ok [parseCore (jsTrim "a 01".data), parseCore (jsTrim "b 02".data)] ∧
    parseBatch ["a 01", "   ", "b 02"] = .error .emptyInput :=
  ⟨(parseBatch_order_and_abort ["a 01", "b 02"]).1 (by decide),
   (parseBatch_order_and_abort ["a 01", "   ", "b 02"]).2 ["a 01"] "   " ["b 02"]
     rfl (by decide) (by decide)⟩

/-- Closed witness for C7 (amended), via the theorem itself. -/
theorem resolution_priority_amended_witness :
    extractResolution "a 2160p 720p b".data = some .UHD2160 ∧
    extractResolution "a 1080i b".data = some .FHD1080 ∧
    extractResolution "a 720p b".data = some .HD720 ∧
    extractResolution "a 480p b".data = some .SD480 ∧
    extractResolution "abc".data = none :=
  ⟨(resolution_priority_amended.2 _).2.1 (by decide) (by decide),
   (resolution_priority_amended.2 _).2.2.1 (by decide) (by decide),
   (resolution_priority_amended.2 _).2.2.2.1 (by decide) (by decide) (by decide),
   (resolution_priority_amended.2 _).2.2.2.2.1 (by decide) (by decide) (by decide) (by decide),
   (resolution_priority_amended.2 _).2.2.2.2.2 (by decide) (by decide) (by decide) (by decide)⟩

end Zantetsu
